import Mathlib

/-!
Deutsche Übungen: exercise normalisation and grading.

A shallow embedding of the quiz engines of the repository
(`wortschatz.js`, `data/wortschatz/nouns.js`, `script.js`, `faelle.js`)
and theorems about their graders, normalisers and generators.

Modelling conventions:

* A JavaScript string is the list of its code points (`Str`).  For the
  operations used by the program (`toLowerCase`, `normalize('NFD')`,
  `replace` with single-character patterns, `trim`, `===`) this view agrees
  with the UTF-16 view on every well-formed string.
* The built-in Unicode tables are given on a fragment: Basic Latin and
  Latin-1 Supplement (U+0000..U+00FF), the Combining Diacritical Marks
  block (U+0300..U+036F) and U+1E9E.  Code points outside the fragment are
  inert: no case mapping, no decomposition, combining class 0, not
  `Diacritic`.  The table values are those of the Unicode Character
  Database.
* `Math.random()` is an explicit stream of draws that is threaded through
  the program in evaluation order.
-/

namespace DeutscheUebungen

/-! ## Strings -/

/-- A JavaScript string, as the list of its code points. -/
abbrev Str := List Nat

/-- The code points of a string literal. -/
def js (s : String) : Str := s.toList.map Char.toNat

/-- Simple lowercase mapping of one code point (`UnicodeData.txt`, field 13) on
the fragment: `A`..`Z`, `À`..`Þ` without `×`, and `ẞ`. -/
def lowerCp (c : Nat) : Nat :=
  if 0x41 ≤ c ∧ c ≤ 0x5A then c + 32
  else if 0xC0 ≤ c ∧ c ≤ 0xDE ∧ c ≠ 0xD7 then c + 32
  else if c = 0x1E9E then 0xDF
  else c

/-- The built-in `String.prototype.toLowerCase`. -/
def toLowerCase (s : Str) : Str := s.map lowerCp

/-- Full canonical decompositions (`UnicodeData.txt`, field 5) of the
fragment: the precomposed Latin-1 letters and the four combining marks with
a canonical mapping. -/
def decompTable : List (Nat × List Nat) :=
  [ (0xC0, [0x41, 0x300]), (0xC1, [0x41, 0x301]), (0xC2, [0x41, 0x302]),
    (0xC3, [0x41, 0x303]), (0xC4, [0x41, 0x308]), (0xC5, [0x41, 0x30A]),
    (0xC7, [0x43, 0x327]), (0xC8, [0x45, 0x300]), (0xC9, [0x45, 0x301]),
    (0xCA, [0x45, 0x302]), (0xCB, [0x45, 0x308]), (0xCC, [0x49, 0x300]),
    (0xCD, [0x49, 0x301]), (0xCE, [0x49, 0x302]), (0xCF, [0x49, 0x308]),
    (0xD1, [0x4E, 0x303]), (0xD2, [0x4F, 0x300]), (0xD3, [0x4F, 0x301]),
    (0xD4, [0x4F, 0x302]), (0xD5, [0x4F, 0x303]), (0xD6, [0x4F, 0x308]),
    (0xD9, [0x55, 0x300]), (0xDA, [0x55, 0x301]), (0xDB, [0x55, 0x302]),
    (0xDC, [0x55, 0x308]), (0xDD, [0x59, 0x301]),
    (0xE0, [0x61, 0x300]), (0xE1, [0x61, 0x301]), (0xE2, [0x61, 0x302]),
    (0xE3, [0x61, 0x303]), (0xE4, [0x61, 0x308]), (0xE5, [0x61, 0x30A]),
    (0xE7, [0x63, 0x327]), (0xE8, [0x65, 0x300]), (0xE9, [0x65, 0x301]),
    (0xEA, [0x65, 0x302]), (0xEB, [0x65, 0x308]), (0xEC, [0x69, 0x300]),
    (0xED, [0x69, 0x301]), (0xEE, [0x69, 0x302]), (0xEF, [0x69, 0x308]),
    (0xF1, [0x6E, 0x303]), (0xF2, [0x6F, 0x300]), (0xF3, [0x6F, 0x301]),
    (0xF4, [0x6F, 0x302]), (0xF5, [0x6F, 0x303]), (0xF6, [0x6F, 0x308]),
    (0xF9, [0x75, 0x300]), (0xFA, [0x75, 0x301]), (0xFB, [0x75, 0x302]),
    (0xFC, [0x75, 0x308]), (0xFD, [0x79, 0x301]), (0xFF, [0x79, 0x308]),
    (0x340, [0x300]), (0x341, [0x301]), (0x343, [0x313]),
    (0x344, [0x308, 0x301]) ]

/-- Canonical decomposition of one code point. -/
def decompCp (c : Nat) : List Nat :=
  match decompTable.lookup c with
  | some d => d
  | none => [c]

/-- Canonical combining classes (`UnicodeData.txt`, field 3) of the
Combining Diacritical Marks block, as inclusive ranges. -/
def cccRanges : List (Nat × Nat × Nat) :=
  [ (0x300, 0x314, 230), (0x315, 0x315, 232), (0x316, 0x319, 220),
    (0x31A, 0x31A, 232), (0x31B, 0x31B, 216), (0x31C, 0x320, 220),
    (0x321, 0x322, 202), (0x323, 0x326, 220), (0x327, 0x328, 202),
    (0x329, 0x333, 220), (0x334, 0x338, 1), (0x339, 0x33C, 220),
    (0x33D, 0x344, 230), (0x345, 0x345, 240), (0x346, 0x346, 230),
    (0x347, 0x349, 220), (0x34A, 0x34C, 230), (0x34D, 0x34E, 220),
    (0x350, 0x352, 230), (0x353, 0x356, 220), (0x357, 0x357, 230),
    (0x358, 0x358, 232), (0x359, 0x35A, 220), (0x35B, 0x35B, 230),
    (0x35C, 0x35C, 233), (0x35D, 0x35E, 234), (0x35F, 0x35F, 233),
    (0x360, 0x361, 234), (0x362, 0x362, 233), (0x363, 0x36F, 230) ]

/-- Canonical combining class of a code point; 0 is a starter. -/
def ccc (c : Nat) : Nat :=
  match cccRanges.find? (fun r => decide (r.1 ≤ c ∧ c ≤ r.2.1)) with
  | some r => r.2.2
  | none => 0

/-- Canonical ordering, one step: put `c` in front of an ordered string,
moving it behind the leading marks of strictly smaller non-zero class. -/
def canonInsert (c : Nat) : List Nat → List Nat
  | [] => [c]
  | d :: l => if ccc d ≠ 0 ∧ ccc d < ccc c then d :: canonInsert c l else c :: d :: l

/-- The Canonical Ordering Algorithm: every run of non-starters is sorted
by combining class, stably. -/
def canonicalOrder : List Nat → List Nat
  | [] => []
  | c :: l => canonInsert c (canonicalOrder l)

/-- The built-in `String.prototype.normalize('NFD')`. -/
def nfd (s : Str) : Str := canonicalOrder (s.flatMap decompCp)

/-- The Unicode property `Diacritic` (`PropList.txt`) on the fragment, as
inclusive ranges. -/
def diacriticRanges : List (Nat × Nat) :=
  [ (0x5E, 0x5E), (0x60, 0x60), (0xA8, 0xA8), (0xAF, 0xAF), (0xB4, 0xB4),
    (0xB7, 0xB8), (0x300, 0x34E), (0x350, 0x357), (0x35D, 0x362) ]

/-- Membership in `\p{Diacritic}`. -/
def isDiacritic (c : Nat) : Bool :=
  diacriticRanges.any (fun r => decide (r.1 ≤ c ∧ c ≤ r.2))

/-- The call `.replace(/\p{Diacritic}/gu, '')`. -/
def stripDiacritics (s : Str) : Str := s.filter (fun c => !isDiacritic c)

/-- The call `.replace(/x/g, r)` for a pattern that is one literal character. -/
def replaceAll (pat : Nat) (r : Str) (s : Str) : Str :=
  s.flatMap (fun c => if c = pat then r else [c])

/-- The code points removed by `trim`: ECMAScript `WhiteSpace` and
`LineTerminator`. -/
def isWhiteSpace (c : Nat) : Bool :=
  c = 0x09 ∨ c = 0x0A ∨ c = 0x0B ∨ c = 0x0C ∨ c = 0x0D ∨ c = 0x20 ∨ c = 0xA0 ∨
  c = 0x1680 ∨ (0x2000 ≤ c ∧ c ≤ 0x200A) ∨ c = 0x2028 ∨ c = 0x2029 ∨
  c = 0x202F ∨ c = 0x205F ∨ c = 0x3000 ∨ c = 0xFEFF

/-- The built-in `String.prototype.trim`. -/
def trim (s : Str) : Str := (s.dropWhile isWhiteSpace).rdropWhile isWhiteSpace

/-- The function `normalizeStr` of `wortschatz.js`. -/
def normalizeStr (str : Str) : Str :=
  trim
    (replaceAll 0xDF (js "ss")
      (replaceAll 0xFC (js "ue")
        (replaceAll 0xF6 (js "oe")
          (replaceAll 0xE4 (js "ae")
            (stripDiacritics (nfd (toLowerCase str)))))))

/-- The function `normalize` of `data/wortschatz/nouns.js`. -/
def Nouns.normalize (str : Str) : Str :=
  trim
    (replaceAll 0xDF (js "ss")
      (replaceAll 0xFC (js "ue")
        (replaceAll 0xF6 (js "oe")
          (replaceAll 0xE4 (js "ae")
            (stripDiacritics (nfd (toLowerCase str)))))))

/-! ## The random source -/

/-- The outcomes of the successive calls of `Math.random()`.  A draw is an
arbitrary natural number: where the program computes
`Math.floor(Math.random() * n)` the index is the draw's residue modulo `n`
(every index below `n` is the outcome of some draw), and where the program
compares two random numbers it compares the two draws. -/
abbrev Draws := Nat → Nat

/-- The draws left after one call of `Math.random()`. -/
def Draws.tail (g : Draws) : Draws := fun k => g (k + 1)

/-- The statement `[a[i], a[j]] = [a[j], a[i]]` for two indices inside the
array (the shuffle loop uses no others): `a[i]` receives the old `a[j]`,
then `a[j]` the old `a[i]`. -/
def swap {α : Type} (a : List α) (i j : Nat) : List α :=
  match a[i]?, a[j]? with
  | some x, some y => (a.set i y).set j x
  | _, _ => a

/-- The loop `for (let i = n; i > 0; i--)` of the Fisher-Yates shuffle. -/
def shuffleLoop {α : Type} : Nat → List α → Draws → List α × Draws
  | 0, a, g => (a, g)
  | i + 1, a, g => shuffleLoop i (swap a (i + 1) (g 0 % (i + 2))) g.tail

/-- The function `shuffleCopy` of `wortschatz.js`. -/
def shuffleCopy {α : Type} (arr : List α) (g : Draws) : List α × Draws :=
  shuffleLoop (arr.length - 1) arr g

/-- The step `array.map(a => [Math.random(), a])` of `shuffle` in `nouns.js`. -/
def Nouns.withKeys {α : Type} : List α → Draws → List (Nat × α) × Draws
  | [], g => ([], g)
  | a :: l, g => ((g 0, a) :: (Nouns.withKeys l g.tail).1, (Nouns.withKeys l g.tail).2)

/-- The function `shuffle` of `data/wortschatz/nouns.js`: a stable sort by
random keys. -/
def Nouns.shuffle {α : Type} (array : List α) (g : Draws) : List α × Draws :=
  (((Nouns.withKeys array g).1.insertionSort (fun x y => x.1 ≤ y.1)).map Prod.snd,
    (Nouns.withKeys array g).2)

/-- Sequential `Array.prototype.map` with a callback that consumes draws. -/
def mapDraws {α β : Type} (f : α → Draws → β × Draws) : List α → Draws → List β × Draws
  | [], g => ([], g)
  | a :: l, g => ((f a g).1 :: (mapDraws f l (f a g).2).1, (mapDraws f l (f a g).2).2)

/-! ## Vocabulary entries and exercises -/

/-- JavaScript truthiness of a value that is a string or absent
(`undefined`, `null`). -/
def truthy : Option Str → Bool
  | some (_ :: _) => true
  | _ => false

/-- The operator `a || b` on values that are strings or absent. -/
def jsOr (a b : Option Str) : Option Str := if truthy a then a else b

/-- A value inside a template literal. -/
def tpl (v : Option Str) : Str := v.getD (js "undefined")

/-- `String.prototype.includes`. -/
def includes (s pat : Str) : Bool := s.tails.any (fun t => pat.isPrefixOf t)

/-- A record of `data/wortschatz/a1.json`: every field is a string or
absent; `translations` is a list of strings or absent.  The display-only
fields (`examples`, `level`, `tags`) are not read by the grading logic and
are left out. -/
structure VocabEntry where
  id : Option Str := none
  lemma_ : Option Str := none
  word : Option Str := none
  term : Option Str := none
  article : Option Str := none
  gender : Option Str := none
  genus : Option Str := none
  g : Option Str := none
  plural : Option Str := none
  pl : Option Str := none
  plur : Option Str := none
  pos : Option Str := none
  partOfSpeech : Option Str := none
  translations : Option (List Str) := none

/-- An exercise object as the two noun builders produce it: `nouns.js` fills
`id`, `prompt`, `choices` and `tags`, the fallback builder fills `question`
and `options`. -/
structure NounExercise where
  id : Option Str := none
  type : Str
  prompt : Option Str := none
  question : Option Str := none
  choices : Option (List Str) := none
  options : Option (List Str) := none
  answer : Option Str
  validator : Option (Str → Option Bool) := none
  explain : Option Str := none
  tags : List Str := []

/-- A question of the session of `wortschatz.js`. -/
structure Question where
  type : Str
  question : Str
  options : List Str
  answer : Option Str
  validator : Option (Str → Option Bool) := none
  explain : Option Str := none
  lemma_ : Option Str := none

/-- The result of `normalizeNounEntry`: the four resolved fields (the spread
`...e` keeps the raw fields, which the builder does not read again). -/
structure NounEntry where
  lemma_ : Str
  article : Str
  gender : Str
  plural : Str
deriving DecidableEq

/-- The table `genderToArticle` of `normalizeNounEntry`: its own properties.
The two lowercase names that the object inherits (`constructor`,
`__proto__`) are not strings and are outside the model. -/
def genderToArticle : List (Str × Str) :=
  [ (js "m", js "der"), (js "mas", js "der"), (js "maskulin", js "der"),
    (js "männlich", js "der"), (js "masculine", js "der"),
    (js "f", js "die"), (js "fem", js "die"), (js "feminin", js "die"),
    (js "weiblich", js "die"), (js "feminine", js "die"),
    (js "n", js "das"), (js "neu", js "das"), (js "neuter", js "das"),
    (js "neutral", js "das"), (js "sächlich", js "das") ]

/-- The list `['der', 'die', 'das']`. -/
def articles : List Str := [js "der", js "die", js "das"]

/-- The function `normalizeNounEntry` of `wortschatz.js`. -/
def normalizeNounEntry (e : VocabEntry) : NounEntry :=
  let lemma_ := (jsOr (jsOr (jsOr e.lemma_ e.word) e.term) (some [])).getD []
  let article0 := toLowerCase ((jsOr e.article (some [])).getD [])
  let gender0 := toLowerCase ((jsOr (jsOr (jsOr e.gender e.genus) e.g) (some [])).getD [])
  let article1 := if article0 = [] then (genderToArticle.lookup gender0).getD [] else article0
  let article2 := if article1 = [] ∧ gender0 ∈ articles then gender0 else article1
  let gender1 :=
    if gender0 = [] ∧ article2 ∈ articles then
      (if article2 = js "der" then js "m" else if article2 = js "die" then js "f" else js "n")
    else gender0
  let plural := (jsOr (jsOr (jsOr e.plural e.pl) e.plur) (some [])).getD []
  { lemma_ := lemma_, article := article2, gender := gender1, plural := plural }

/-- The function `fallbackBuildNounExercises` of `wortschatz.js`. -/
def fallbackBuildNounExercises (entryRaw : VocabEntry) (g : Draws) : List NounExercise × Draws :=
  let entry := normalizeNounEntry entryRaw
  if entry.lemma_ = [] then ([], g)
  else
    let art : List NounExercise × Draws :=
      if entry.article ≠ [] then
        ([{ type := js "mcq"
            question := some (js "Welcher Artikel passt zu \"" ++ entry.lemma_ ++ js "\"?")
            options := some (shuffleCopy articles g).1
            answer := some entry.article
            explain := some (entry.article ++ js " " ++ entry.lemma_) }],
          (shuffleCopy articles g).2)
      else ([], g)
    let plu : List NounExercise :=
      if entry.plural ≠ [] then
        [{ type := js "type-in"
           question := some (js "Was ist der Plural von \"" ++ entry.lemma_ ++ js "\"?")
           answer := some entry.plural
           validator := some (fun input => some (decide (normalizeStr input = normalizeStr entry.plural)))
           explain := some (entry.lemma_ ++ js " → " ++ entry.plural) }]
      else []
    (art.1 ++ plu, art.2)

/-- The article chosen by `buildNounExercises` for a gender, `null` when the
gender is none of the three words. -/
def Nouns.correctArticle (gender : Option Str) : Option Str :=
  if gender = some (js "maskulin") then some (js "der")
  else if gender = some (js "feminin") then some (js "die")
  else if gender = some (js "neutral") then some (js "das")
  else none

/-- The function `buildNounExercises` of `data/wortschatz/nouns.js` (the
field `meta` is display data and left out). -/
def Nouns.buildNounExercises (entry : VocabEntry) (g : Draws) : List NounExercise × Draws :=
  let art : List NounExercise × Draws :=
    if truthy entry.gender ∧ truthy entry.lemma_ then
      match Nouns.correctArticle entry.gender with
      | some correctArticle =>
        ([{ id := some (tpl entry.id ++ js "-article")
            type := js "mcq"
            prompt := some (js "Was ist der richtige Artikel für \"" ++ tpl entry.lemma_ ++ js "\"?")
            choices := some (Nouns.shuffle articles g).1
            answer := some correctArticle
            explain := some (correctArticle ++ js " " ++ tpl entry.lemma_)
            tags := [js "artikel", tpl entry.gender] }],
          (Nouns.shuffle articles g).2)
      | none => ([], g)
    else ([], g)
  let plu : List NounExercise :=
    if truthy entry.plural then
      [{ id := some (tpl entry.id ++ js "-plural")
         type := js "type-in"
         prompt := some (js "Was ist der Plural von \"" ++ tpl entry.lemma_ ++ js "\"?")
         answer := entry.plural
         validator := some (fun input =>
           some (decide (Nouns.normalize input = Nouns.normalize (tpl entry.plural))))
         explain := some (tpl entry.lemma_ ++ js " → " ++ tpl entry.plural)
         tags := [js "plural"] }]
    else []
  (art.1 ++ plu, art.2)

/-! ## The vocabulary engine (`wortschatz.js`) -/

/-- The expression `e.translations?.[0]`: the primary translation. -/
def primaryTranslation (e : VocabEntry) : Option Str := e.translations.bind List.head?

/-- The expression `Array.from(new Set(pool))`: the distinct values, each at
its first occurrence. -/
def uniqueValues (pool : List Str) : List Str :=
  pool.foldl (fun acc t => if t ∈ acc then acc else acc ++ [t]) []

/-- The function `getDistractors` of `wortschatz.js`, on the vocabulary held
in the global `vocabularyData`. -/
def getDistractors (vocabularyData : List VocabEntry) (correct : Str) (count : Nat) (g : Draws) :
    List Str × Draws :=
  let pool := (vocabularyData.map primaryTranslation).filter
    (fun t => truthy t && decide (t ≠ some correct))
  let unique := uniqueValues pool.reduceOption
  ((shuffleCopy unique g).1.take (min count unique.length), (shuffleCopy unique g).2)

/-- The name shown for an entry: `entry.lemma || entry.word || entry.term`. -/
def entryName (entry : VocabEntry) : Option Str := jsOr (jsOr entry.lemma_ entry.word) entry.term

/-- The callback of `buildQuestions` that builds one translation question.
It runs on entries that passed the filter, where `entry.translations[0]` is
a non-empty string. -/
def buildQuestions.translationQ (vocabularyData : List VocabEntry) (entry : VocabEntry)
    (g : Draws) : Question × Draws :=
  let answer := (primaryTranslation entry).getD []
  let distractors := getDistractors vocabularyData answer 2 g
  let options := shuffleCopy (answer :: distractors.1) distractors.2
  ({ type := js "mcq"
     question := js "Was bedeutet \"" ++ tpl (entryName entry) ++ js "\"?"
     options := options.1
     answer := some answer
     lemma_ := entryName entry
     explain := some (js "Die Bedeutung von \"" ++ tpl (entryName entry) ++ js "\" ist \"" ++
       answer ++ js "\".") },
    options.2)

/-- The filter of `buildQuestions` that selects the noun candidates. -/
def buildQuestions.isNounCandidate (e : VocabEntry) : Bool :=
  let pos := toLowerCase ((jsOr (jsOr e.pos e.partOfSpeech) (some [])).getD [])
  includes pos (js "noun") || decide (pos = js "n") ||
    decide (toLowerCase ((jsOr e.article (some [])).getD []) ∈ articles) ||
    truthy (jsOr e.gender e.genus)

/-- The callback of `buildQuestions` that turns the `i`-th exercise of the
noun builder into a question of the session. -/
def buildQuestions.nounQuestion (i : Nat) (ex : NounExercise) : Question :=
  { type := ex.type
    question :=
      match ex.prompt with
      | some p => p
      | none =>
        match ex.question with
        | some q => q
        | none => js "[🛑 Fehlende Frage " ++ js (toString i) ++ js "]"
    options := ex.choices.getD []
    answer := ex.answer
    validator := ex.validator
    explain := ex.explain
    lemma_ := none }

/-- The translation questions of `buildQuestions`. -/
def buildQuestions.translationQs (vocabularyData : List VocabEntry) (g : Draws) :
    List Question × Draws :=
  mapDraws (buildQuestions.translationQ vocabularyData)
    (vocabularyData.filter (fun e => truthy (primaryTranslation e))) g

/-- The noun questions of `buildQuestions`, for the builder held in
`buildNounExercisesRef` (`none` is `null`). -/
def buildQuestions.nounExercises (vocabularyData : List VocabEntry)
    (buildNounExercisesRef : Option (VocabEntry → Draws → List NounExercise × Draws))
    (g : Draws) : List Question × Draws :=
  let built : List (List NounExercise) × Draws :=
    match buildNounExercisesRef with
    | some build => mapDraws build (vocabularyData.filter buildQuestions.isNounCandidate) g
    | none => ([], g)
  (built.1.flatten.mapIdx buildQuestions.nounQuestion, built.2)

/-- The function `buildQuestions` of `wortschatz.js`: the value it assigns to
the global `questions`. -/
def buildQuestions (vocabularyData : List VocabEntry)
    (buildNounExercisesRef : Option (VocabEntry → Draws → List NounExercise × Draws))
    (g : Draws) : List Question × Draws :=
  let translationQs := buildQuestions.translationQs vocabularyData g
  let nounExercises :=
    buildQuestions.nounExercises vocabularyData buildNounExercisesRef translationQs.2
  shuffleCopy (translationQs.1 ++ nounExercises.1) nounExercises.2

/-- The constant `correct` of `handleAnswer` in `wortschatz.js`: the result
of the validator unless it is absent or returns `null`/`undefined`, else the
comparison of the lowercased strings. -/
def handleAnswer.correct (selected : Str) (q : Question) : Bool :=
  match (match q.validator with
    | some validator => validator selected
    | none => none) with
  | some b => b
  | none => decide (toLowerCase selected = toLowerCase (q.answer.getD []))

/-! ## The generic engine (`script.js`) -/

/-- A JSON value that is not a container; `undefined` is an absent field.
Numbers are the integers (a fractional index selects no element, like an
index out of range). -/
inductive Atom where
  | undefined
  | null
  | bool (b : Bool)
  | num (n : Int)
  | str (s : Str)
deriving DecidableEq

/-- A field of a raw record: an atom or an array of atoms. -/
inductive JsVal where
  | atom (a : Atom)
  | arr (xs : List Atom)
deriving DecidableEq

/-- JavaScript truthiness of an atom. -/
def Atom.truthy : Atom → Bool
  | .undefined => false
  | .null => false
  | .bool b => b
  | .num n => decide (n ≠ 0)
  | .str s => decide (s ≠ [])

/-- JavaScript truthiness; every array is truthy. -/
def JsVal.truthy : JsVal → Bool
  | .atom a => a.truthy
  | .arr _ => true

/-- The operator `a || b`. -/
def JsVal.or (a b : JsVal) : JsVal := if a.truthy then a else b

/-- A string value. -/
def JsVal.ofString (s : String) : JsVal := .atom (.str (js s))

/-- The test `typeof v === 'string'`. -/
def JsVal.isString : JsVal → Bool
  | .atom (.str _) => true
  | _ => false

/-- The element access `xs[i]` for a number `i`. -/
def elementAt (xs : List Atom) (i : Int) : Atom :=
  if 0 ≤ i then xs.getD i.toNat .undefined else .undefined

/-- A raw record of a data file of the generic engine. -/
structure RawItem where
  type : JsVal := .atom .undefined
  question : JsVal := .atom .undefined
  prompt : JsVal := .atom .undefined
  options : JsVal := .atom .undefined
  answer : JsVal := .atom .undefined
  answerIndex : JsVal := .atom .undefined
  explanation : JsVal := .atom .undefined
deriving DecidableEq

/-- A normalised question of `script.js`; `options` is an array or `null`. -/
structure Item where
  type : JsVal
  question : JsVal
  options : Option (List Atom)
  answer : JsVal
  explanation : JsVal
deriving DecidableEq

/-- The function `normalizeItem` of `script.js`. -/
def normalizeItem (item : RawItem) : Item :=
  let type0 := item.type.or
    (if item.options.truthy then JsVal.ofString "multiple-choice"
     else JsVal.ofString "fill-in-the-blank")
  let type := if type0 = JsVal.ofString "mcq" then JsVal.ofString "multiple-choice" else type0
  let question := (item.question.or item.prompt).or (JsVal.ofString "")
  let options : Option (List Atom) :=
    match item.options with
    | .arr xs => some xs
    | .atom _ => none
  let answer : JsVal :=
    match item.answer, item.answerIndex, options with
    | .atom .undefined, .atom (.num i), some xs => .atom (elementAt xs i)
    | a, _, _ => a
  let explanation := item.explanation.or (JsVal.ofString "")
  { type := type, question := question, options := options, answer := answer,
    explanation := explanation }

/-- The predicate of the filter in `normalizeArray`. -/
def normalizeArray.keep (q : Item) : Bool :=
  q.question.truthy &&
    (if q.type = JsVal.ofString "fill-in-the-blank" then q.answer.isString
     else q.options.isSome)

/-- The function `normalizeArray` of `script.js`; `none` is a value that is
not an array. -/
def normalizeArray (raw : Option (List RawItem)) : List Item :=
  match raw with
  | none => []
  | some items => (items.map normalizeItem).filter normalizeArray.keep

/-! ## The Fisher-Yates shuffles and their draws -/

/-- The function `shuffle` of `script.js`: the loop of `shuffleCopy` on the
copy `arr.slice()`. -/
def Script.shuffle {α : Type} (arr : List α) (g : Draws) : List α × Draws :=
  shuffleLoop (arr.length - 1) arr g

/-- The function `shuffle` of `faelle.js`: the same loop on the copy
`[...arr]`. -/
def Faelle.shuffle {α : Type} (arr : List α) (g : Draws) : List α × Draws :=
  shuffleLoop (arr.length - 1) arr g

/-- The two arrays that exist while a shuffle runs: the array `arr` of the
caller and the local array `a`. -/
structure ShuffleMemory (α : Type) where
  arr : List α
  a : List α

/-- The shuffle loop on the memory: every iteration assigns to `a[i]` and
`a[j]` only. -/
def shuffleLoop.exec {α : Type} : Nat → ShuffleMemory α → Draws → ShuffleMemory α × Draws
  | 0, m, g => (m, g)
  | i + 1, m, g =>
    shuffleLoop.exec i { m with a := swap m.a (i + 1) (g 0 % (i + 2)) } g.tail

/-- A run of a Fisher-Yates shuffle on the memory: `a` starts as a fresh copy
of `arr` (`arr.slice()`, `[...arr]`), the loop runs, `a` is returned. -/
def shuffleCopy.exec {α : Type} (arr : List α) (g : Draws) : ShuffleMemory α × Draws :=
  shuffleLoop.exec (arr.length - 1) { arr := arr, a := arr } g

/-- The draws whose successive indices are the given ones. -/
def drawsOfIndices (js : List Nat) : Draws := fun k => js.getD k 0

/-- The draw sequences of a shuffle with `n` iterations: one index `j` in
`0..i` for each `i` from `n` down to 1. -/
def validIndices : Nat → List Nat → Prop
  | 0, [] => True
  | n + 1, j :: js => j ≤ n + 1 ∧ validIndices n js
  | _, _ => False

/-- The list of all draw sequences of a shuffle with `n` iterations. -/
def allIndices : Nat → List (List Nat)
  | 0 => [[]]
  | n + 1 => (List.range (n + 2)).flatMap (fun j => (allIndices n).map (fun js => j :: js))

/-! ## The session of the vocabulary engine -/

/-- The decimal digits of `n`, most significant first, as code points; the
first argument bounds the number of digits. -/
def digitsOf : Nat → Nat → Str
  | 0, _ => []
  | fuel + 1, n => if n < 10 then [48 + n] else digitsOf fuel (n / 10) ++ [48 + n % 10]

/-- The conversion `String(n)` of a non-negative integer below `1e21`. -/
def numberToString (n : Nat) : Str := digitsOf (n + 1) n

/-- A decimal digit. -/
def isDigit (c : Nat) : Bool := decide (48 ≤ c ∧ c ≤ 57)

/-- The built-in `parseInt(string, 10)`: leading white space is skipped, one
sign is read, and the longest run of digits is the value; `none` is `NaN`. -/
def parseInt (string : Str) : Option Int :=
  let s := string.dropWhile isWhiteSpace
  let body := if s.head? = some 0x2D ∨ s.head? = some 0x2B then s.tail else s
  let z := body.takeWhile isDigit
  if z = [] then none
  else
    some ((if s.head? = some 0x2D then -1 else 1) *
      (z.foldl (fun acc d => acc * 10 + (d - 48)) 0 : Nat))

/-- The state of `wortschatz.js` while a quiz runs: the globals `questions`,
`currentQuestionIndex` and `score`, the item `HIGH_SCORE_KEY` of
`localStorage` (`none` when absent), whether the next button and the restart
button are displayed, and whether the controls of the current question are
disabled. -/
structure Session where
  questions : List Question
  currentQuestionIndex : Nat
  score : Nat
  highScore : Option Str
  nextButtonShown : Bool
  restartButtonShown : Bool
  optionsDisabled : Bool

/-- The function `showQuestion` of `wortschatz.js`: `resetState` hides both
buttons and the controls of the current question are created afresh. -/
def showQuestion (s : Session) : Session :=
  { s with nextButtonShown := false, restartButtonShown := false, optionsDisabled := false }

/-- The function `startQuiz` of `wortschatz.js`. -/
def startQuiz (s : Session) : Session :=
  let s1 := { s with currentQuestionIndex := 0, score := 0, restartButtonShown := false,
                     nextButtonShown := false }
  if s1.questions.length = 0 then s1 else showQuestion s1

/-- The function `updateHighScoreIfNeeded` of `wortschatz.js`. -/
def updateHighScoreIfNeeded (s : Session) : Session :=
  match parseInt ((jsOr s.highScore (some (js "0"))).getD []) with
  | some currentHigh =>
    if (s.score : Int) > currentHigh then { s with highScore := some (numberToString s.score) }
    else s
  | none => s

/-- The function `handleAnswer` of `wortschatz.js`. -/
def handleAnswer (selected : Str) (q : Question) (s : Session) : Session :=
  let s1 := if handleAnswer.correct selected q then { s with score := s.score + 1 } else s
  let lastQuestion := decide (s1.currentQuestionIndex ≥ s1.questions.length - 1)
  let s2 := { s1 with nextButtonShown := !lastQuestion, restartButtonShown := lastQuestion }
  let s3 := if lastQuestion then updateHighScoreIfNeeded s2 else s2
  { s3 with optionsDisabled := true }

/-- The click handler of the next button. -/
def nextButtonClick (s : Session) : Session :=
  showQuestion { s with currentQuestionIndex := s.currentQuestionIndex + 1 }

/-- The states a session over the questions `qs` can reach, with the number
of questions answered since the last start: the quiz is started or
restarted (`startQuiz`), an answer is submitted while the controls of the
current question are enabled (`handleAnswer` on that question), or the next
button is clicked while it is displayed. -/
inductive Reachable (qs : List Question) : Nat → Session → Prop where
  | start (s0 : Session) : s0.questions = qs → Reachable qs 0 (startQuiz s0)
  | restart {k : Nat} {s : Session} : Reachable qs k s → Reachable qs 0 (startQuiz s)
  | submit {k : Nat} {s : Session} (selected : Str) (q : Question) :
      Reachable qs k s → s.optionsDisabled = false →
      s.questions[s.currentQuestionIndex]? = some q →
      Reachable qs (k + 1) (handleAnswer selected q s)
  | advance {k : Nat} {s : Session} :
      Reachable qs k s → s.nextButtonShown = true → Reachable qs k (nextButtonClick s)

/-- The click handlers that `showQuestion` attaches to the controls of the
current question: `handleAnswer(option, q)` with
`q = questions[currentQuestionIndex]`. -/
def answerCurrentQuestion (selected : Str) (s : Session) : Session :=
  match s.questions[s.currentQuestionIndex]? with
  | some q => handleAnswer selected q s
  | none => s

/-! ## Free-text grading of the generic engine and the cases engine -/

/-- The condition of `selectFillInBlankAnswer` in `script.js`:
`userAnswer.trim().toLowerCase() === String(correctAnswer).toLowerCase()`,
for an expected answer that is a string (as `normalizeArray` guarantees for
fill-in-the-blank questions). -/
def Script.selectFillInBlankAnswer.correct (userAnswer correctAnswer : Str) : Bool :=
  decide (toLowerCase (trim userAnswer) = toLowerCase correctAnswer)

/-- The function `normalize` of `faelle.js`, on a string. -/
def Faelle.normalize (s : Str) : Str := toLowerCase (trim s)

/-- The condition of `selectFillInBlankAnswer` in `faelle.js`. -/
def Faelle.selectFillInBlankAnswer.correct (userAnswer correctAnswer : Str) : Bool :=
  decide (Faelle.normalize userAnswer = Faelle.normalize correctAnswer)

/-! ## The session filter of the cases engine (`faelle.js`) -/

/-- A raw record of `data/faelle/a1.json`; `tags` is an array or absent. -/
structure Faelle.RawExercise where
  type : JsVal := .atom .undefined
  prompt : JsVal := .atom .undefined
  question : JsVal := .atom .undefined
  options : JsVal := .atom .undefined
  answer : JsVal := .atom .undefined
  answerIndex : JsVal := .atom .undefined
  explanation : JsVal := .atom .undefined
  tags : Option (List Atom) := none
deriving DecidableEq

/-- A normalised exercise of `faelle.js`. -/
structure Faelle.Exercise where
  type : JsVal
  question : JsVal
  options : JsVal
  answer : JsVal
  explanation : JsVal
  tags : List Atom
deriving DecidableEq

/-- The operator `a ?? b`. -/
def JsVal.coalesce (a b : JsVal) : JsVal :=
  match a with
  | .atom .undefined => b
  | .atom .null => b
  | _ => a

/-- The function `normalizeExercise` of `faelle.js`. -/
def Faelle.normalizeExercise (item : Faelle.RawExercise) : Faelle.Exercise :=
  let isMC := decide (item.type = JsVal.ofString "multiple-choice")
  let question := (item.prompt.coalesce item.question).coalesce (JsVal.ofString "")
  let options := if isMC then item.options else .atom .undefined
  let answer : JsVal :=
    if isMC then
      match item.answer, item.options, item.answerIndex with
      | .atom .undefined, .arr xs, .atom (.num i) => .atom (elementAt xs i)
      | .atom .null, .arr xs, .atom (.num i) => .atom (elementAt xs i)
      | a, _, _ => a
    else item.answer
  { type := item.type, question := question, options := options, answer := answer,
    explanation := item.explanation.or (JsVal.ofString ""), tags := item.tags.getD [] }

/-- The predicate of the filter in `loadQuestions`, for the query parameters
`case` and `gender` (`none` when the parameter is absent). -/
def Faelle.loadQuestions.keep (caseFilter genderFilter : Option Str) (q : Faelle.Exercise) :
    Bool :=
  if truthy caseFilter ∧ Atom.str (caseFilter.getD []) ∉ q.tags then false
  else if truthy genderFilter ∧ Atom.str (genderFilter.getD []) ∉ q.tags then false
  else true

/-- The normalised candidates of `loadQuestions`: `raw.map(normalizeExercise)`. -/
def Faelle.loadQuestions.candidates (raw : List Faelle.RawExercise) : List Faelle.Exercise :=
  raw.map Faelle.normalizeExercise

/-- The function `loadQuestions` of `faelle.js`, after the data are fetched:
the value it assigns to `questions`. -/
def Faelle.loadQuestions (raw : List Faelle.RawExercise) (caseFilter genderFilter : Option Str)
    (g : Draws) : List Faelle.Exercise × Draws :=
  Faelle.shuffle
    ((Faelle.loadQuestions.candidates raw).filter
      (Faelle.loadQuestions.keep caseFilter genderFilter)) g

/-! ## Gender and article of a noun entry -/

/-- The article that `normalizeNounEntry` reads from the entry:
`(e.article || '').toLowerCase()`. -/
def givenArticle (e : VocabEntry) : Str := toLowerCase ((jsOr e.article (some [])).getD [])

/-- The gender that `normalizeNounEntry` reads from the entry:
`(e.gender || e.genus || e.g || '').toLowerCase()`. -/
def givenGender (e : VocabEntry) : Str :=
  toLowerCase ((jsOr (jsOr (jsOr e.gender e.genus) e.g) (some [])).getD [])

/-! ## Concrete inputs -/

/-- The entry `{lemma: 'Katze', gender: 'feminin', plural: 'Katzen'}`. -/
def katze : VocabEntry :=
  { lemma_ := some (js "Katze"), gender := some (js "feminin"), plural := some (js "Katzen") }

/-- The plural exercise that the fallback builder produces for `katze` (the
second of its two exercises). -/
def katzePluralExercise : NounExercise :=
  (fallbackBuildNounExercises katze (fun _ => 0)).1.getD 1 { type := [], answer := none }

/-- A vocabulary of two entries whose primary translations are the empty
string and `cat`. -/
def emptyTranslationVocab : List VocabEntry :=
  [{ lemma_ := some (js "Haus"), translations := some [js ""] },
   { lemma_ := some (js "Katze"), translations := some [js "cat"] }]

/-- The entry `{lemma: 'Hund', gender: 'maskulin'}`. -/
def hund : VocabEntry := { lemma_ := some (js "Hund"), gender := some (js "maskulin") }

/-- A vocabulary of one entry, with one primary translation. -/
def singleTranslationVocab : List VocabEntry :=
  [{ lemma_ := some (js "Katze"), translations := some [js "cat"] }]

/-- A multiple-choice record with options, without `answer` and without
`answerIndex`. -/
def mcNoAnswer : RawItem :=
  { question := JsVal.ofString "Welcher Artikel passt?"
    options := .arr [.str (js "der"), .str (js "die"), .str (js "das")] }

/-- The entry `{lemma: 'Hund', article: 'der', gender: 'feminin'}`. -/
def derFeminin : VocabEntry :=
  { lemma_ := some (js "Hund"), article := some (js "der"), gender := some (js "feminin") }

/-- The entry `{lemma: 'Hund', article: 'Der'}`. -/
def derHund : VocabEntry := { lemma_ := some (js "Hund"), article := some (js "Der") }

/-- An article question with the answer `der`. -/
def hundQuestion : Question :=
  { type := js "mcq", question := js "Hund?", options := articles, answer := some (js "der") }

/-- An article question with the answer `das`. -/
def hausQuestion : Question :=
  { type := js "mcq", question := js "Haus?", options := articles, answer := some (js "das") }

/-- Three article questions with the answers `der`, `die`, `das`. -/
def threeQuestions : List Question :=
  [hundQuestion,
   { type := js "mcq", question := js "Katze?", options := articles, answer := some (js "die") },
   hausQuestion]

/-- The state before the last of three questions is answered, with score 1
and the stored best score 1. -/
def beforeLastAnswer : Session :=
  { questions := threeQuestions, currentQuestionIndex := 2, score := 1,
    highScore := some (js "1"), nextButtonShown := false, restartButtonShown := false,
    optionsDisabled := false }

/-- A page that has loaded `threeQuestions`, with the given stored best score. -/
def sessionWithBest (best : Option Str) : Session :=
  { questions := threeQuestions, currentQuestionIndex := 0, score := 0, highScore := best,
    nextButtonShown := false, restartButtonShown := false, optionsDisabled := false }

/-- A whole session on three questions: start, then three answers with the
next button clicked in between. -/
def playThree (a1 a2 a3 : Str) (s : Session) : Session :=
  answerCurrentQuestion a3 (nextButtonClick (answerCurrentQuestion a2
    (nextButtonClick (answerCurrentQuestion a1 (startQuiz s)))))

/-- Two raw records of the cases engine, tagged `akkusativ`, `feminin` and
`nominativ`, `maskulin`. -/
def taggedExercises : List Faelle.RawExercise :=
  [{ type := JsVal.ofString "fill-in-the-blank", prompt := JsVal.ofString "Ich sehe ___ Katze."
     answer := JsVal.ofString "die", tags := some [.str (js "akkusativ"), .str (js "feminin")] },
   { type := JsVal.ofString "fill-in-the-blank", prompt := JsVal.ofString "___ Hund bellt."
     answer := JsVal.ofString "der", tags := some [.str (js "nominativ"), .str (js "maskulin")] }]

/-- A record whose type is the empty string, with a list of options. -/
def emptyTypeItem : RawItem :=
  { type := JsVal.ofString "", question := JsVal.ofString "Welcher Artikel passt?"
    options := .arr [.str (js "der"), .str (js "die")], answer := JsVal.ofString "der" }

/-- A record with the type `mcq`, no answer, and the answer index 1. -/
def mcqIndexItem : RawItem :=
  { type := JsVal.ofString "mcq", question := JsVal.ofString "Welcher Artikel passt?"
    options := .arr [.str (js "der"), .str (js "die")], answerIndex := .atom (.num 1) }

/-- The entry `{lemma: 'Mutter', gender: 'feminin', plural: 'Mütter'}`. -/
def mutter : VocabEntry :=
  { lemma_ := some (js "Mutter"), gender := some (js "feminin"), plural := some (js "Mütter") }

/-- An article question whose options hold the answer `die` and its case
variant `Die`. -/
def dieQuestion : Question :=
  { type := js "mcq", question := js "Welcher Artikel?", options := [js "Die", js "die"],
    answer := some (js "die") }

theorem lowerCp_idem (c : Nat) : lowerCp (lowerCp c) = lowerCp c := by
  unfold lowerCp
  split_ifs <;> omega

theorem mem_of_lookup {c : Nat} {v : List Nat} :
    ∀ {t : List (Nat × List Nat)}, t.lookup c = some v → (c, v) ∈ t := by
  intro t
  induction t with
  | nil => intro h; simp at h
  | cons e t ih =>
    intro h
    obtain ⟨k, b⟩ := e
    rw [List.lookup_cons] at h
    by_cases hk : (c == k) = true
    · rw [hk] at h
      have hck : c = k := by simpa using hk
      simp only [Option.some.injEq] at h
      subst hck; subst h
      exact List.mem_cons_self _ _
    · have hk' : (c == k) = false := by simpa using hk
      rw [hk'] at h
      exact List.mem_cons_of_mem _ (ih h)

theorem ccc_ne_zero_range {c : Nat} (h : ccc c ≠ 0) : 0x300 ≤ c ∧ c ≤ 0x36F := by
  unfold ccc at h
  split at h
  · rename_i r hr
    have hm := List.mem_of_find?_eq_some hr
    have hp := List.find?_some hr
    have hall : ∀ r ∈ cccRanges, 0x300 ≤ r.1 ∧ r.2.1 ≤ 0x36F := by decide
    have := hall r hm
    simp only [decide_eq_true_eq] at hp
    omega
  · exact absurd rfl h

theorem decompTable_full : ∀ e ∈ decompTable, ∀ d ∈ e.2, decompTable.lookup d = none := by
  decide

theorem decompTable_lower :
    ∀ e ∈ decompTable, lowerCp e.1 = e.1 → ∀ d ∈ e.2, lowerCp d = d := by
  decide

theorem decompTable_marks :
    ∀ e ∈ decompTable, ∀ d ∈ e.2, ccc d ≠ 0 → isDiacritic d = true := by
  decide

/-- What holds of every code point of the decomposition of a lowercased
code point. -/
theorem decomp_lower_props {y c : Nat} (hc : c ∈ decompCp (lowerCp y)) :
    lowerCp c = c ∧ decompCp c = [c] ∧
      ((ccc y ≠ 0 → isDiacritic y = true) → ccc c ≠ 0 → isDiacritic c = true) := by
  unfold decompCp at hc
  split at hc
  · rename_i v hv
    have hm := mem_of_lookup hv
    refine ⟨decompTable_lower _ hm (lowerCp_idem y) c hc, ?_, fun _ => decompTable_marks _ hm c hc⟩
    unfold decompCp
    rw [decompTable_full _ hm c hc]
  · rename_i hv
    have hcx : c = lowerCp y := by simpa using hc
    subst hcx
    refine ⟨lowerCp_idem y, ?_, ?_⟩
    · unfold decompCp
      rw [hv]
    · intro hy hne
      have hr := ccc_ne_zero_range hne
      have hyx : lowerCp y = y := by
        unfold lowerCp at hr ⊢
        split_ifs at hr ⊢ <;> omega
      rw [hyx] at hne ⊢
      exact hy hne

theorem mem_canonInsert {c x : Nat} : ∀ {l : List Nat}, c ∈ canonInsert x l ↔ c = x ∨ c ∈ l := by
  intro l
  induction l with
  | nil => simp [canonInsert]
  | cons d l ih =>
    unfold canonInsert
    split_ifs
    · simp only [List.mem_cons, ih]
      tauto
    · simp only [List.mem_cons]

theorem mem_canonicalOrder {c : Nat} : ∀ {l : List Nat}, c ∈ canonicalOrder l ↔ c ∈ l := by
  intro l
  induction l with
  | nil => simp [canonicalOrder]
  | cons d l ih => simp only [canonicalOrder, mem_canonInsert, ih, List.mem_cons]

theorem flatMap_fixed {f : Nat → List Nat} :
    ∀ {l : List Nat}, (∀ c ∈ l, f c = [c]) → l.flatMap f = l := by
  intro l
  induction l with
  | nil => intro _; rfl
  | cons d l ih =>
    intro h
    rw [List.flatMap_cons, h d (by simp), ih (fun c hc => h c (List.mem_cons_of_mem _ hc))]
    rfl

theorem replaceAll_absent {pat : Nat} {r t : Str} (h : ∀ c ∈ t, c ≠ pat) :
    replaceAll pat r t = t := by
  unfold replaceAll
  exact flatMap_fixed (fun c hc => by simp [h c hc])

/-- A string whose combining marks are all diacritics keeps this property
under lowercasing and canonical decomposition. -/
theorem nfd_marks_of_marks {s : Str} (hs : ∀ c ∈ s, ccc c ≠ 0 → isDiacritic c = true) :
    ∀ c ∈ nfd (toLowerCase s), ccc c ≠ 0 → isDiacritic c = true := by
  intro c hc
  unfold nfd at hc
  rw [mem_canonicalOrder, List.mem_flatMap] at hc
  obtain ⟨x, hx, hcx⟩ := hc
  unfold toLowerCase at hx
  rw [List.mem_map] at hx
  obtain ⟨y, hy, rfl⟩ := hx
  exact (decomp_lower_props hcx).2.2 (hs y hy)

/-- C1, refuted as stated: the multiple-choice question with answer `die` and
no validator grades the submitted option `Die` as correct, although `Die` is
not the answer under exact string equality. -/
theorem handleAnswer_case_variant_graded_correct :
    dieQuestion.validator.isNone = true ∧ dieQuestion.type = js "mcq" ∧
      js "Die" ∈ dieQuestion.options ∧ some (js "Die") ≠ dieQuestion.answer ∧
      handleAnswer.correct (js "Die") dieQuestion = true := by
  decide

/-- C1, amended: for a question without validator, `handleAnswer` grades a
submitted string correct if and only if its lowercase form equals the
lowercase form of the answer (an absent answer counts as the empty string);
so the exact answer text is graded correct. -/
theorem handleAnswer_default_iff_lowercase_eq (q : Question) (selected : Str)
    (hv : q.validator = none) :
    (handleAnswer.correct selected q = true ↔
        toLowerCase selected = toLowerCase (q.answer.getD [])) ∧
      (some selected = q.answer → handleAnswer.correct selected q = true) := by
  have h : handleAnswer.correct selected q
      = decide (toLowerCase selected = toLowerCase (q.answer.getD [])) := by
    unfold handleAnswer.correct
    rw [hv]
  refine ⟨by rw [h, decide_eq_true_eq], fun hs => ?_⟩
  rw [h, decide_eq_true_eq, ← hs]
  rfl

/-- Witness of `handleAnswer_default_iff_lowercase_eq` at the question with
answer `die` and the submitted strings `Die`. -/
theorem handleAnswer_default_iff_lowercase_eq_witness :
    dieQuestion.validator = none ∧
      (handleAnswer.correct (js "Die") dieQuestion = true ↔
        toLowerCase (js "Die") = toLowerCase (dieQuestion.answer.getD [])) :=
  ⟨rfl, (handleAnswer_default_iff_lowercase_eq dieQuestion (js "Die") rfl).1⟩

/-- C3: both normalisers map `Müller` to `muller` (the umlaut is removed as a
diacritic before the substitution `ü -> ue` is tried) and leave `mueller`
unchanged, so the two results differ. -/
theorem normalizeStr_mueller_differs :
    normalizeStr (js "Müller") = js "muller" ∧ normalizeStr (js "mueller") = js "mueller" ∧
      normalizeStr (js "Müller") ≠ normalizeStr (js "mueller") ∧
      Nouns.normalize (js "Müller") = js "muller" ∧
      Nouns.normalize (js "mueller") = js "mueller" := by
  decide

theorem mcq_ne_typeIn : js "mcq" ≠ js "type-in" := by decide

/-- The type-in exercises of the fallback builder. -/
theorem fallback_typeIn {e : VocabEntry} {g : Draws} {ex : NounExercise}
    (h : ex ∈ (fallbackBuildNounExercises e g).1) (hty : ex.type = js "type-in") :
    (normalizeNounEntry e).plural ≠ [] ∧ ex.answer = some (normalizeNounEntry e).plural ∧
      ex.validator = some (fun input =>
        some (decide (normalizeStr input = normalizeStr (normalizeNounEntry e).plural))) := by
  unfold fallbackBuildNounExercises at h
  simp only at h
  split_ifs at h with h1 h2 h3 h3
  · simp at h
  · simp only [List.mem_append, List.mem_singleton] at h
    rcases h with h | h
    · subst h
      exact absurd hty mcq_ne_typeIn
    · subst h
      exact ⟨h3, rfl, rfl⟩
  · simp only [List.append_nil, List.mem_singleton] at h
    subst h
    exact absurd hty mcq_ne_typeIn
  · simp only [List.nil_append, List.mem_singleton] at h
    subst h
    exact ⟨h3, rfl, rfl⟩
  · simp at h

theorem truthy_iff {v : Option Str} : truthy v = true ↔ ∃ p, v = some p ∧ p ≠ [] := by
  cases v with
  | none => simp [truthy]
  | some p => cases p <;> simp [truthy]

/-- The exercises of `buildNounExercises` of type `mcq`: the article exercise. -/
theorem nouns_article_part (e : VocabEntry) (g : Draws) :
    ∃ art : List NounExercise, ∃ plu : List NounExercise,
      (Nouns.buildNounExercises e g).1 = art ++ plu ∧
      (art = [] ∨ ∃ a, Nouns.correctArticle e.gender = some a ∧ truthy e.gender = true ∧
        truthy e.lemma_ = true ∧ ∃ x, art = [x] ∧ x.type = js "mcq" ∧
        x.choices = some (Nouns.shuffle articles g).1 ∧ x.answer = some a) ∧
      (Nouns.correctArticle e.gender ≠ none → truthy e.gender = true →
        truthy e.lemma_ = true → art ≠ []) ∧
      ((plu = [] ∧ truthy e.plural = false) ∨ (truthy e.plural = true ∧ ∃ x, plu = [x] ∧
        x.type = js "type-in" ∧ x.answer = e.plural ∧ x.choices = none ∧
        x.validator = some (fun input =>
          some (decide (Nouns.normalize input = Nouns.normalize (tpl e.plural)))))) := by
  unfold Nouns.buildNounExercises
  simp only
  refine ⟨_, _, rfl, ?_, ?_, ?_⟩
  · split_ifs with h
    · split
      · rename_i a ha
        exact Or.inr ⟨a, ha, h.1, h.2, _, rfl, rfl, rfl, rfl⟩
      · exact Or.inl rfl
    · exact Or.inl rfl
  · intro h1 h2 h3
    rw [if_pos ⟨h2, h3⟩]
    split
    · simp
    · rename_i hn
      exact absurd hn h1
  · split_ifs with h
    · exact Or.inr ⟨h, _, rfl, rfl, rfl, rfl, rfl⟩
    · exact Or.inl ⟨rfl, by simpa using h⟩

/-- The type-in exercises of `buildNounExercises`. -/
theorem nouns_typeIn {e : VocabEntry} {g : Draws} {ex : NounExercise}
    (h : ex ∈ (Nouns.buildNounExercises e g).1) (hty : ex.type = js "type-in") :
    truthy e.plural = true ∧ ex.answer = e.plural ∧
      ex.validator = some (fun input =>
        some (decide (Nouns.normalize input = Nouns.normalize (tpl e.plural)))) := by
  obtain ⟨art, plu, hsplit, hart, -, hplu⟩ := nouns_article_part e g
  rw [hsplit, List.mem_append] at h
  rcases h with h | h
  · rcases hart with rfl | ⟨a, -, -, -, x, rfl, hx, -⟩
    · simp at h
    · rw [List.mem_singleton] at h
      subst h
      rw [hx] at hty
      exact absurd hty mcq_ne_typeIn
  · rcases hplu with ⟨rfl, -⟩ | ⟨ht, x, rfl, -, hans, -, hval⟩
    · simp at h
    · rw [List.mem_singleton] at h
      subst h
      exact ⟨ht, hans, hval⟩

/-- C2: a plural (type-in) exercise of either noun builder reaches the session
with its validator; `handleAnswer` grades a submitted string correct exactly
when the validator accepts it, which is exactly when the normalised
submitted string equals the normalised plural, the default lowercase
comparison being never consulted.  For the plural `Katzen`, `katzen` is
graded correct and `Katze` incorrect. -/
theorem plural_exercise_graded_by_validator (e : VocabEntry) (g : Draws) (ex : NounExercise)
    (i : Nat) (hty : ex.type = js "type-in") :
    (ex ∈ (fallbackBuildNounExercises e g).1 →
      ∃ validator, (buildQuestions.nounQuestion i ex).validator = some validator ∧
        (buildQuestions.nounQuestion i ex).answer = some (normalizeNounEntry e).plural ∧
        ∀ s, (handleAnswer.correct s (buildQuestions.nounQuestion i ex) = true ↔
            validator s = some true) ∧
          (validator s = some true ↔
            normalizeStr s = normalizeStr (normalizeNounEntry e).plural)) ∧
    (ex ∈ (Nouns.buildNounExercises e g).1 →
      ∃ validator, ∃ p, e.plural = some p ∧
        (buildQuestions.nounQuestion i ex).validator = some validator ∧
        (buildQuestions.nounQuestion i ex).answer = some p ∧
        ∀ s, (handleAnswer.correct s (buildQuestions.nounQuestion i ex) = true ↔
            validator s = some true) ∧
          (validator s = some true ↔ Nouns.normalize s = Nouns.normalize p)) ∧
    ((normalizeNounEntry e).plural = js "Katzen" → ex ∈ (fallbackBuildNounExercises e g).1 →
      handleAnswer.correct (js "katzen") (buildQuestions.nounQuestion i ex) = true ∧
      handleAnswer.correct (js "Katze") (buildQuestions.nounQuestion i ex) = false) ∧
    (e.plural = some (js "Katzen") → ex ∈ (Nouns.buildNounExercises e g).1 →
      handleAnswer.correct (js "katzen") (buildQuestions.nounQuestion i ex) = true ∧
      handleAnswer.correct (js "Katze") (buildQuestions.nounQuestion i ex) = false) := by
  refine ⟨fun h => ?_, fun h => ?_, fun hp h => ?_, fun hp h => ?_⟩
  · obtain ⟨-, hans, hval⟩ := fallback_typeIn h hty
    refine ⟨_, hval, hans, fun s => ⟨?_, ?_⟩⟩
    · simp [handleAnswer.correct, buildQuestions.nounQuestion, hval]
    · simp
  · obtain ⟨ht, hans, hval⟩ := nouns_typeIn h hty
    obtain ⟨p, hp, -⟩ := truthy_iff.mp ht
    refine ⟨_, p, hp, hval, hans.trans hp, fun s => ⟨?_, ?_⟩⟩
    · simp [handleAnswer.correct, buildQuestions.nounQuestion, hval]
    · simp [hp, tpl]
  · obtain ⟨-, -, hval⟩ := fallback_typeIn h hty
    simp only [handleAnswer.correct, buildQuestions.nounQuestion, hval, hp]
    decide
  · obtain ⟨-, -, hval⟩ := nouns_typeIn h hty
    simp only [handleAnswer.correct, buildQuestions.nounQuestion, hval, hp, tpl, Option.getD_some]
    decide

/-- Witness of `plural_exercise_graded_by_validator` at the plural exercise
of the fallback builder for `katze`. -/
theorem plural_exercise_graded_by_validator_witness :
    katzePluralExercise.type = js "type-in" ∧
      katzePluralExercise ∈ (fallbackBuildNounExercises katze (fun _ => 0)).1 ∧
      handleAnswer.correct (js "katzen") (buildQuestions.nounQuestion 1 katzePluralExercise) = true ∧
      handleAnswer.correct (js "Katze") (buildQuestions.nounQuestion 1 katzePluralExercise) = false :=
  ⟨by decide, List.mem_cons_of_mem _ (List.mem_singleton_self _),
    (plural_exercise_graded_by_validator katze (fun _ => 0) katzePluralExercise 1
      (by decide)).2.2.1 (by decide) (List.mem_cons_of_mem _ (List.mem_singleton_self _))⟩

/-! ## Shuffling -/

theorem swap_perm {α : Type} (a : List α) (i j : Nat) : (swap a i j).Perm a := by
  classical
  unfold swap
  split
  · rename_i x y hx hy
    obtain ⟨hi, ex⟩ := List.getElem?_eq_some_iff.mp hx
    obtain ⟨hj, ey⟩ := List.getElem?_eq_some_iff.mp hy
    rw [List.perm_iff_count]
    intro c
    have hj' : j < (a.set i y).length := by simpa using hj
    have e2 : (a.set i y)[j] = y := by
      rw [List.getElem_set]
      split_ifs
      · rfl
      · exact ey
    have h1 := List.count_set y c a i hi
    have h2 := List.count_set x c (a.set i y) j hj'
    rw [e2] at h2
    rw [ex] at h1
    have hdx : (if (x == c) = true then 1 else 0) ≤ a.count c := by
      split_ifs with h
      · have hxc : x = c := by simpa using h
        exact List.count_pos_iff.mpr (hxc ▸ ex ▸ List.getElem_mem hi)
      · exact Nat.zero_le _
    generalize (if (x == c) = true then 1 else 0) = dx at h1 h2 hdx
    generalize (if (y == c) = true then 1 else 0) = dy at h1 h2
    omega
  · exact List.Perm.refl a

theorem shuffleLoop_perm {α : Type} :
    ∀ (i : Nat) (a : List α) (g : Draws), (shuffleLoop i a g).1.Perm a := by
  intro i
  induction i with
  | zero => intro a g; exact List.Perm.refl a
  | succ i ih =>
    intro a g
    exact (ih _ _).trans (swap_perm a _ _)

/-- The result of `shuffleCopy` is a rearrangement of its argument. -/
theorem shuffleCopy_perm {α : Type} (arr : List α) (g : Draws) : (shuffleCopy arr g).1.Perm arr :=
  shuffleLoop_perm _ arr g

theorem withKeys_snd {α : Type} :
    ∀ (l : List α) (g : Draws), (Nouns.withKeys l g).1.map Prod.snd = l := by
  intro l
  induction l with
  | nil => intro g; rfl
  | cons a l ih => intro g; simp [Nouns.withKeys, ih]

/-- The result of `shuffle` of `nouns.js` is a rearrangement of its argument. -/
theorem nouns_shuffle_perm {α : Type} (array : List α) (g : Draws) :
    (Nouns.shuffle array g).1.Perm array := by
  unfold Nouns.shuffle
  have h := (List.perm_insertionSort (fun x y : Nat × α => x.1 ≤ y.1)
    (Nouns.withKeys array g).1).map Prod.snd
  rwa [withKeys_snd] at h

theorem mem_mapDraws {α β : Type} {f : α → Draws → β × Draws} {b : β} :
    ∀ {l : List α} {g : Draws}, b ∈ (mapDraws f l g).1 → ∃ a ∈ l, ∃ g1, b = (f a g1).1 := by
  intro l
  induction l with
  | nil => intro g h; simp [mapDraws] at h
  | cons a l ih =>
    intro g h
    simp only [mapDraws, List.mem_cons] at h
    rcases h with h | h
    · exact ⟨a, List.mem_cons_self _ _, g, h⟩
    · obtain ⟨a1, ha1, g1, hb⟩ := ih h
      exact ⟨a1, List.mem_cons_of_mem _ ha1, g1, hb⟩

/-! ## Distractors -/

theorem uniqueValues_aux (pool : List Str) :
    ∀ acc : List Str, acc.Nodup →
      (pool.foldl (fun acc t => if t ∈ acc then acc else acc ++ [t]) acc).Nodup ∧
      ∀ x, x ∈ pool.foldl (fun acc t => if t ∈ acc then acc else acc ++ [t]) acc ↔
        x ∈ acc ∨ x ∈ pool := by
  induction pool with
  | nil => intro acc h; simp [h]
  | cons t pool ih =>
    intro acc h
    rw [List.foldl_cons]
    split_ifs with ht
    · obtain ⟨h1, h2⟩ := ih acc h
      refine ⟨h1, fun x => ?_⟩
      rw [h2, List.mem_cons]
      constructor
      · rintro (hx | hx)
        · exact Or.inl hx
        · exact Or.inr (Or.inr hx)
      · rintro (hx | rfl | hx)
        · exact Or.inl hx
        · exact Or.inl ht
        · exact Or.inr hx
    · have hn : (acc ++ [t]).Nodup := by
        rw [List.nodup_append]
        refine ⟨h, List.nodup_singleton t, ?_⟩
        intro a ha hb
        rw [List.mem_singleton] at hb
        exact ht (hb ▸ ha)
      obtain ⟨h1, h2⟩ := ih _ hn
      refine ⟨h1, fun x => ?_⟩
      rw [h2, List.mem_append, List.mem_singleton, List.mem_cons]
      tauto

theorem uniqueValues_nodup (pool : List Str) : (uniqueValues pool).Nodup :=
  (uniqueValues_aux pool [] List.nodup_nil).1

theorem mem_uniqueValues {pool : List Str} {x : Str} : x ∈ uniqueValues pool ↔ x ∈ pool := by
  unfold uniqueValues
  rw [(uniqueValues_aux pool [] List.nodup_nil).2]
  simp

/-- The candidates of `getDistractors`: the non-empty primary translations
other than `correct`. -/
theorem mem_distractor_pool {vocabularyData : List VocabEntry} {correct t : Str} :
    t ∈ uniqueValues (((vocabularyData.map primaryTranslation).filter
        (fun t => truthy t && decide (t ≠ some correct))).reduceOption) ↔
      (∃ e ∈ vocabularyData, primaryTranslation e = some t) ∧ t ≠ [] ∧ t ≠ correct := by
  rw [mem_uniqueValues, List.reduceOption_mem_iff, List.mem_filter, List.mem_map]
  have ht : truthy (some t) = true ↔ t ≠ [] := by
    cases t <;> simp [truthy]
  simp only [Bool.and_eq_true, decide_eq_true_eq, ht, ne_eq, Option.some.injEq]

/-- C5, refuted as stated: in the vocabulary with the primary translations
`''` and `cat`, one distinct primary translation differs from `cat`, but
`getDistractors('cat', 2)` is empty, because the empty string is falsy and
filtered out of the pool. -/
theorem getDistractors_skips_empty_translation :
    ((emptyTranslationVocab.filterMap primaryTranslation).filter
        (fun t => decide (t ≠ js "cat"))).dedup = [js ""] ∧
      (getDistractors emptyTranslationVocab (js "cat") 2 (fun _ => 0)).1 = [] ∧
      (getDistractors emptyTranslationVocab (js "cat") 2 (fun _ => 0)).1.length ≠
        min 2 ((emptyTranslationVocab.filterMap primaryTranslation).filter
          (fun t => decide (t ≠ js "cat"))).dedup.length := by
  decide

/-- Every distractor is a non-empty primary translation other than `correct`. -/
theorem getDistractors_subset {vocabularyData : List VocabEntry} {correct t : Str} {count : Nat}
    {g : Draws} (h : t ∈ (getDistractors vocabularyData correct count g).1) :
    (∃ e ∈ vocabularyData, primaryTranslation e = some t) ∧ t ≠ [] ∧ t ≠ correct :=
  mem_distractor_pool.mp ((shuffleCopy_perm _ g).subset (List.mem_of_mem_take h))

/-- No distractor occurs twice. -/
theorem getDistractors_nodup (vocabularyData : List VocabEntry) (correct : Str) (count : Nat)
    (g : Draws) : (getDistractors vocabularyData correct count g).1.Nodup :=
  (((shuffleCopy_perm _ g).nodup_iff).mpr (uniqueValues_nodup _)).sublist (List.take_sublist _ _)

/-- The number of distractors. -/
theorem getDistractors_length (vocabularyData : List VocabEntry) (correct : Str) (count : Nat)
    (g : Draws) :
    (getDistractors vocabularyData correct count g).1.length =
      min count ((vocabularyData.filterMap primaryTranslation).filter
        (fun t => decide (t ≠ [] ∧ t ≠ correct))).dedup.length := by
  have hlen : (uniqueValues (((vocabularyData.map primaryTranslation).filter
      (fun t => truthy t && decide (t ≠ some correct))).reduceOption)).length =
      ((vocabularyData.filterMap primaryTranslation).filter
        (fun t => decide (t ≠ [] ∧ t ≠ correct))).dedup.length := by
    apply List.Perm.length_eq
    rw [List.perm_ext_iff_of_nodup (uniqueValues_nodup _) (List.nodup_dedup _)]
    intro t
    rw [mem_distractor_pool, List.mem_dedup, List.mem_filter, List.mem_filterMap]
    simp only [decide_eq_true_eq]
  unfold getDistractors
  simp only
  rw [List.length_take, (shuffleCopy_perm _ g).length_eq, ← hlen]
  omega

/-- C5, amended: for every vocabulary, answer, count and draws, the result of
`getDistractors` does not contain `correct`, has no element twice, contains
only primary translations of the vocabulary, and has length exactly the
minimum of `count` and the number of distinct non-empty primary translations
different from `correct`. -/
theorem getDistractors_spec (vocabularyData : List VocabEntry) (correct : Str) (count : Nat)
    (g : Draws) :
    correct ∉ (getDistractors vocabularyData correct count g).1 ∧
      (getDistractors vocabularyData correct count g).1.Nodup ∧
      (∀ t ∈ (getDistractors vocabularyData correct count g).1,
        ∃ e ∈ vocabularyData, primaryTranslation e = some t) ∧
      (getDistractors vocabularyData correct count g).1.length =
        min count ((vocabularyData.filterMap primaryTranslation).filter
          (fun t => decide (t ≠ [] ∧ t ≠ correct))).dedup.length := by
  refine ⟨fun h => ?_, getDistractors_nodup vocabularyData correct count g, fun t ht => ?_,
    getDistractors_length vocabularyData correct count g⟩
  · exact (getDistractors_subset h).2.2 rfl
  · exact (getDistractors_subset ht).1

/-! ## Record normalisation of the generic engine -/

/-- C6: the record `{question, options: ['der','die','das']}` has neither
`answer` nor `answerIndex`; `normalizeItem` infers the kind multiple-choice
and resolves no answer, and `normalizeArray` keeps the record, because its
filter checks the answer on the fill-in-the-blank path only. -/
theorem normalizeArray_keeps_mcq_without_answer :
    mcNoAnswer.answer = .atom .undefined ∧ mcNoAnswer.answerIndex = .atom .undefined ∧
      (normalizeItem mcNoAnswer).type = JsVal.ofString "multiple-choice" ∧
      (normalizeItem mcNoAnswer).answer = .atom .undefined ∧
      normalizeArray (some [mcNoAnswer]) = [normalizeItem mcNoAnswer] := by
  decide

/-- Every question of the two parts of `buildQuestions` is in the session. -/
theorem mem_buildQuestions {vocabularyData : List VocabEntry}
    {buildNounExercisesRef : Option (VocabEntry → Draws → List NounExercise × Draws)}
    {g : Draws} {q : Question}
    (h : q ∈ (buildQuestions.translationQs vocabularyData g).1 ∨
      q ∈ (buildQuestions.nounExercises vocabularyData buildNounExercisesRef
        (buildQuestions.translationQs vocabularyData g).2).1) :
    q ∈ (buildQuestions vocabularyData buildNounExercisesRef g).1 := by
  unfold buildQuestions
  exact (shuffleCopy_perm _ _).symm.subset (List.mem_append.mpr h)

/-- C8, refuted as stated: for a vocabulary of one entry the translation
question has the single option `cat`. -/
theorem translation_question_single_option :
    (buildQuestions.translationQs singleTranslationVocab (fun _ => 0)).1.map
        (fun q => (q.type, q.options, q.answer)) = [(js "mcq", [js "cat"], some (js "cat"))] ∧
      (buildQuestions singleTranslationVocab (some fallbackBuildNounExercises) (fun _ => 0)).1.map
        (fun q => q.options.length) = [1] := by
  decide

/-- C8, amended: each translation question built by `buildQuestions` is a
question of the session of type `mcq`; it has exactly one option more than
the minimum of 2 and the number of distinct non-empty primary translations
other than its answer (so between one and three options, and at least two
as soon as the vocabulary holds another non-empty primary translation), no
option occurs twice, and its answer occurs among its options exactly once. -/
theorem translation_question_options (vocabularyData : List VocabEntry)
    (buildNounExercisesRef : Option (VocabEntry → Draws → List NounExercise × Draws))
    (g : Draws) (q : Question) (hq : q ∈ (buildQuestions.translationQs vocabularyData g).1) :
    q ∈ (buildQuestions vocabularyData buildNounExercisesRef g).1 ∧ q.type = js "mcq" ∧
      ∃ answer, q.answer = some answer ∧ answer ≠ [] ∧ q.options.Nodup ∧
        (q.options.filter (fun o => decide (o = answer))).length = 1 ∧
        q.options.length = 1 + min 2 ((vocabularyData.filterMap primaryTranslation).filter
          (fun t => decide (t ≠ [] ∧ t ≠ answer))).dedup.length ∧
        1 ≤ q.options.length ∧ q.options.length ≤ 3 := by
  refine ⟨mem_buildQuestions (Or.inl hq), ?_⟩
  unfold buildQuestions.translationQs at hq
  obtain ⟨entry, hentry, g1, rfl⟩ := mem_mapDraws hq
  obtain ⟨p, hp, hpne⟩ := truthy_iff.mp (List.mem_filter.mp hentry).2
  have d1 : p ∉ (getDistractors vocabularyData p 2 g1).1 :=
    fun h => (getDistractors_subset h).2.2 rfl
  have d2 := getDistractors_nodup vocabularyData p 2 g1
  have d4 := getDistractors_length vocabularyData p 2 g1
  have hperm := shuffleCopy_perm (p :: (getDistractors vocabularyData p 2 g1).1)
    (getDistractors vocabularyData p 2 g1).2
  have hopt : (buildQuestions.translationQ vocabularyData entry g1).1.options =
      (shuffleCopy (p :: (getDistractors vocabularyData p 2 g1).1)
        (getDistractors vocabularyData p 2 g1).2).1 := by
    simp only [buildQuestions.translationQ, hp, Option.getD_some]
  have hans : (buildQuestions.translationQ vocabularyData entry g1).1.answer = some p := by
    simp only [buildQuestions.translationQ, hp, Option.getD_some]
  refine ⟨rfl, p, hans, hpne, ?_, ?_, ?_, ?_, ?_⟩ <;> rw [hopt]
  · exact hperm.nodup_iff.mpr (List.nodup_cons.mpr ⟨d1, d2⟩)
  · have hf : (getDistractors vocabularyData p 2 g1).1.filter (fun o => decide (o = p)) = [] := by
      rw [List.filter_eq_nil_iff]
      intro a ha hap
      exact d1 ((of_decide_eq_true hap) ▸ ha)
    rw [(hperm.filter _).length_eq, List.filter_cons_of_pos (by simp), hf]
    rfl
  · rw [hperm.length_eq, List.length_cons, d4]
    omega
  · rw [hperm.length_eq, List.length_cons]
    omega
  · rw [hperm.length_eq, List.length_cons, d4]
    omega

/-- Witness of `translation_question_options` at the vocabulary of one entry. -/
theorem translation_question_options_witness :
    ∃ q, q ∈ (buildQuestions.translationQs singleTranslationVocab (fun _ => 0)).1 ∧
      q ∈ (buildQuestions singleTranslationVocab none (fun _ => 0)).1 ∧ q.options.length ≤ 3 :=
  ⟨_, List.mem_singleton_self _,
    (translation_question_options singleTranslationVocab none (fun _ => 0) _
      (List.mem_singleton_self _)).1,
    (translation_question_options singleTranslationVocab none (fun _ => 0) _
      (List.mem_singleton_self _)).2.2.choose_spec.2.2.2.2.2.2⟩

/-- C9: for the entry `{lemma: 'Hund', gender: 'maskulin'}` both builders
produce one article exercise with the three articles and the answer `der`.
With `buildNounExercises` of `nouns.js` the question of the session has the
three articles as options; with the fallback builder, which stores them
under `options` where `buildQuestions` reads `choices`, the question of the
session has no options, whatever the draws. -/
theorem article_question_of_fallback_has_no_options (g : Draws) :
    (∃ ex, (fallbackBuildNounExercises hund g).1 = [ex] ∧ ex.type = js "mcq" ∧
      ex.answer = some (js "der") ∧ ex.choices = none ∧
      ∃ opts, ex.options = some opts ∧ opts.Perm articles) ∧
    (buildQuestions [hund] (some fallbackBuildNounExercises) g).1.map
        (fun q => (q.type, q.options, q.answer)) = [(js "mcq", [], some (js "der"))] ∧
    (buildQuestions [hund] (some Nouns.buildNounExercises) (fun _ => 0)).1.map
        (fun q => (q.type, q.options, q.answer)) =
      [(js "mcq", [js "der", js "die", js "das"], some (js "der"))] := by
  refine ⟨⟨_, rfl, rfl, rfl, rfl, _, rfl, shuffleCopy_perm articles g⟩, rfl, by decide⟩

/-! ## The noun builder of `nouns.js` -/

/-- C10: for an entry with a non-empty lemma, a gender among `maskulin`,
`feminin`, `neutral` and a non-empty plural, `buildNounExercises` returns
exactly two exercises: first the article exercise, of type `mcq`, whose
choices are a rearrangement of `der`, `die`, `das` and whose answer is the
article of the gender, then the type-in exercise whose answer is the plural.
For `Katze` the answers are `die` and `Katzen`.  An entry with neither gender
nor plural yields the empty list. -/
theorem buildNounExercises_spec (entry : VocabEntry) (g : Draws)
    (hl : truthy entry.lemma_ = true)
    (hg : entry.gender = some (js "maskulin") ∨ entry.gender = some (js "feminin") ∨
      entry.gender = some (js "neutral"))
    (hp : truthy entry.plural = true) :
    (∃ a p, (Nouns.buildNounExercises entry g).1 = [a, p] ∧
      a.type = js "mcq" ∧ (∃ cs, a.choices = some cs ∧ cs.Perm articles) ∧
      (entry.gender = some (js "maskulin") → a.answer = some (js "der")) ∧
      (entry.gender = some (js "feminin") → a.answer = some (js "die")) ∧
      (entry.gender = some (js "neutral") → a.answer = some (js "das")) ∧
      p.type = js "type-in" ∧ p.answer = entry.plural) ∧
    (∀ g1, (Nouns.buildNounExercises katze g1).1.map (fun x => x.answer) =
      [some (js "die"), some (js "Katzen")]) ∧
    (∀ e g1, truthy e.gender = false → truthy e.plural = false →
      (Nouns.buildNounExercises e g1).1 = []) := by
  refine ⟨?_, fun g1 => rfl, fun e g1 h1 h2 => ?_⟩
  · obtain ⟨art, plu, hsplit, hart, hne, hplu⟩ := nouns_article_part entry g
    have hgt : truthy entry.gender = true := by
      rcases hg with h | h | h <;> rw [h] <;> decide
    have hca : Nouns.correctArticle entry.gender ≠ none := by
      rcases hg with h | h | h <;> rw [h] <;> decide
    rcases hart with hnil | ⟨a, ha, -, -, x, rfl, hx1, hx2, hx3⟩
    · exact absurd hnil (hne hca hgt hl)
    · rcases hplu with ⟨-, hf⟩ | ⟨-, y, rfl, hy1, hy2, -, -⟩
      · rw [hp] at hf
        exact Bool.noConfusion hf
      · refine ⟨x, y, hsplit, hx1, ⟨_, hx2, nouns_shuffle_perm articles g⟩, ?_, ?_, ?_, hy1, hy2⟩
        · intro h
          rw [hx3, ← ha, h]
          decide
        · intro h
          rw [hx3, ← ha, h]
          decide
        · intro h
          rw [hx3, ← ha, h]
          decide
  · obtain ⟨art, plu, hsplit, hart, -, hplu⟩ := nouns_article_part e g1
    rcases hart with rfl | ⟨a, -, ht, -⟩
    · rcases hplu with ⟨rfl, -⟩ | ⟨ht, -⟩
      · exact hsplit
      · rw [h2] at ht
        exact Bool.noConfusion ht
    · rw [h1] at ht
      exact Bool.noConfusion ht

/-- Witness of `buildNounExercises_spec` at the entry `Katze`. -/
theorem buildNounExercises_spec_witness :
    truthy katze.lemma_ = true ∧ katze.gender = some (js "feminin") ∧
      truthy katze.plural = true ∧
      ∃ a p, (Nouns.buildNounExercises katze (fun _ => 0)).1 = [a, p] ∧
        a.type = js "mcq" ∧ (∃ cs, a.choices = some cs ∧ cs.Perm articles) ∧
        (katze.gender = some (js "maskulin") → a.answer = some (js "der")) ∧
        (katze.gender = some (js "feminin") → a.answer = some (js "die")) ∧
        (katze.gender = some (js "neutral") → a.answer = some (js "das")) ∧
        p.type = js "type-in" ∧ p.answer = katze.plural :=
  ⟨by decide, rfl, by decide,
    (buildNounExercises_spec katze (fun _ => 0) (by decide) (Or.inr (Or.inl rfl))
      (by decide)).1⟩

/-! ## Gender and article of a normalised noun entry -/

theorem lookup_mem {α β : Type} [BEq α] [LawfulBEq α] {k : α} {v : β} :
    ∀ {t : List (α × β)}, t.lookup k = some v → (k, v) ∈ t := by
  intro t
  induction t with
  | nil => intro h; simp at h
  | cons e t ih =>
    intro h
    obtain ⟨k1, v1⟩ := e
    rw [List.lookup_cons] at h
    by_cases hk : (k == k1) = true
    · rw [hk] at h
      have hkk : k = k1 := by simpa using hk
      simp only [Option.some.injEq] at h
      subst hkk; subst h
      exact List.mem_cons_self _ _
    · have hk1 : (k == k1) = false := by simpa using hk
      rw [hk1] at h
      exact List.mem_cons_of_mem _ (ih h)

theorem genderToArticle_nonempty {gender a : Str}
    (h : genderToArticle.lookup gender = some a) : gender ≠ [] ∧ a ≠ [] := by
  have hall : ∀ e ∈ genderToArticle, e.1 ≠ [] ∧ e.2 ≠ [] := by decide
  exact hall _ (lookup_mem h)

/-- C11, refuted as stated: for the entry with article `der` and gender
`feminin` the output keeps both, `der` and `feminin`, although the mapping
gives `die` for `feminin`. -/
theorem normalizeNounEntry_keeps_conflict :
    normalizeNounEntry derFeminin = ⟨js "Hund", js "der", js "feminin", []⟩ ∧
      genderToArticle.lookup (normalizeNounEntry derFeminin).gender = some (js "die") ∧
      (normalizeNounEntry derFeminin).article ≠ js "die" := by
  decide

/-- C11, amended: when the entry gives no article and its lowercased gender
is a recognised alias, the output article is the article of the mapping and
the gender is kept; when the entry gives no gender and its lowercased article
is `der`, `die` or `das`, the article is kept and the output gender is the
code `m`, `f` or `n` of the mapping; in both cases the output gender and
article agree under the mapping.  When the entry gives both, both are kept
as given, in lowercase. -/
theorem normalizeNounEntry_derives (e : VocabEntry) :
    (givenArticle e = [] → ∀ a, genderToArticle.lookup (givenGender e) = some a →
      (normalizeNounEntry e).article = a ∧ (normalizeNounEntry e).gender = givenGender e ∧
      genderToArticle.lookup (normalizeNounEntry e).gender =
        some (normalizeNounEntry e).article) ∧
    (givenGender e = [] → givenArticle e ∈ articles →
      (normalizeNounEntry e).article = givenArticle e ∧
      ((normalizeNounEntry e).article = js "der" → (normalizeNounEntry e).gender = js "m") ∧
      ((normalizeNounEntry e).article = js "die" → (normalizeNounEntry e).gender = js "f") ∧
      ((normalizeNounEntry e).article = js "das" → (normalizeNounEntry e).gender = js "n") ∧
      genderToArticle.lookup (normalizeNounEntry e).gender =
        some (normalizeNounEntry e).article) ∧
    (givenArticle e ≠ [] → givenGender e ≠ [] →
      (normalizeNounEntry e).article = givenArticle e ∧
      (normalizeNounEntry e).gender = givenGender e) := by
  unfold normalizeNounEntry givenArticle givenGender
  simp only
  generalize toLowerCase ((jsOr e.article (some [])).getD []) = A
  generalize toLowerCase ((jsOr (jsOr (jsOr e.gender e.genus) e.g) (some [])).getD []) = G
  refine ⟨fun hA a ha => ?_, fun hG hA => ?_, fun hA hG => ?_⟩
  · obtain ⟨hG, hane⟩ := genderToArticle_nonempty ha
    subst hA
    simp [ha, hane, hG]
  · subst hG
    have hcases : A = js "der" ∨ A = js "die" ∨ A = js "das" := by
      simpa [articles] using hA
    rcases hcases with h | h | h <;> subst h <;> decide
  · simp [hA, hG]

/-- Witness of `normalizeNounEntry_derives` at the entry with the article
`Der` and no gender. -/
theorem normalizeNounEntry_derives_witness :
    givenGender derHund = [] ∧ givenArticle derHund ∈ articles ∧
      (normalizeNounEntry derHund).article = js "der" ∧
      (normalizeNounEntry derHund).gender = js "m" :=
  ⟨by decide, by decide,
    ((normalizeNounEntry_derives derHund).2.1 (by decide) (by decide)).1.trans (by decide),
    ((normalizeNounEntry_derives derHund).2.1 (by decide) (by decide)).2.1 (by decide)⟩

/-! ## The Fisher-Yates shuffle -/

theorem swap_length {α : Type} (a : List α) (i j : Nat) : (swap a i j).length = a.length :=
  (swap_perm a i j).length_eq

theorem shuffleLoop_exec {α : Type} :
    ∀ (i : Nat) (m : ShuffleMemory α) (g : Draws),
      (shuffleLoop.exec i m g).1.arr = m.arr ∧
      (shuffleLoop.exec i m g).1.a = (shuffleLoop i m.a g).1 := by
  intro i
  induction i with
  | zero => intro m g; exact ⟨rfl, rfl⟩
  | succ i ih =>
    intro m g
    exact ih _ _

/-- C12: for every list and every draws, each Fisher-Yates shuffle (`shuffle`
of `script.js`, `shuffle` of `faelle.js`, `shuffleCopy` of `wortschatz.js`)
returns a list of the same length that is a permutation of its argument, and
the run leaves the array of the caller as it was: only the local copy is
assigned to. -/
theorem fisherYates_permutation {α : Type} (arr : List α) (g : Draws) :
    ((shuffleCopy arr g).1.length = arr.length ∧ (shuffleCopy arr g).1.Perm arr) ∧
    ((Script.shuffle arr g).1.length = arr.length ∧ (Script.shuffle arr g).1.Perm arr) ∧
    ((Faelle.shuffle arr g).1.length = arr.length ∧ (Faelle.shuffle arr g).1.Perm arr) ∧
    (shuffleCopy.exec arr g).1.arr = arr ∧
    (shuffleCopy.exec arr g).1.a = (shuffleCopy arr g).1 := by
  have h := shuffleLoop_perm (arr.length - 1) arr g
  exact ⟨⟨h.length_eq, h⟩, ⟨h.length_eq, h⟩, ⟨h.length_eq, h⟩,
    (shuffleLoop_exec _ _ g).1, (shuffleLoop_exec _ _ g).2⟩

theorem swap_append_left {α : Type} {p : List α} (s : List α) {i j : Nat}
    (hi : i < p.length) (hj : j < p.length) : swap (p ++ s) i j = swap p i j ++ s := by
  obtain ⟨x, hx⟩ : ∃ x, p[i]? = some x := ⟨p[i], List.getElem?_eq_getElem hi⟩
  obtain ⟨y, hy⟩ : ∃ y, p[j]? = some y := ⟨p[j], List.getElem?_eq_getElem hj⟩
  unfold swap
  rw [List.getElem?_append_left hi, List.getElem?_append_left hj, hx, hy]
  simp only
  rw [List.set_append_left _ _ hi, List.set_append_left _ _ (by simpa using hj)]

/-- The loop with `i` iterations touches the first `i + 1` places only. -/
theorem shuffleLoop_append {α : Type} :
    ∀ (i : Nat) (p s : List α) (g : Draws), i < p.length →
      shuffleLoop i (p ++ s) g = ((shuffleLoop i p g).1 ++ s, (shuffleLoop i p g).2) := by
  intro i
  induction i with
  | zero => intro p s g _; rfl
  | succ i ih =>
    intro p s g hp
    have hj : g 0 % (i + 2) < p.length :=
      Nat.lt_of_lt_of_le (Nat.mod_lt _ (by omega)) (by omega)
    show shuffleLoop i (swap (p ++ s) (i + 1) (g 0 % (i + 2))) g.tail = _
    rw [swap_append_left s hp hj, ih _ _ _ (by rw [swap_length]; omega)]
    rfl

/-- After the swap of the last place with place `j`, the last place holds the
former `p[j]`. -/
theorem swap_last {α : Type} {p : List α} {n j : Nat} {y : α} (hp : p.length = n + 2)
    (hy : p[j]? = some y) :
    swap p (n + 1) j = (swap p (n + 1) j).dropLast ++ [y] := by
  have hlast : (swap p (n + 1) j).getLast? = some y := by
    rw [List.getLast?_eq_getElem?, swap_length, hp]
    show (swap p (n + 1) j)[n + 1]? = some y
    obtain ⟨x, hx⟩ : ∃ x, p[n + 1]? = some x :=
      ⟨p[n + 1], List.getElem?_eq_getElem (by omega)⟩
    unfold swap
    rw [hx, hy]
    simp only
    by_cases hjn : j = n + 1
    · subst hjn
      rw [hx] at hy
      rw [List.getElem?_set_self (by simp; omega), hy]
    · rw [List.getElem?_set_ne hjn, List.getElem?_set_self (by omega)]
  exact (List.dropLast_append_getLast? y hlast).symm

/-- One iteration of the loop, then the rest on the places before the last. -/
theorem shuffleLoop_succ {α : Type} {p : List α} {n : Nat} {y : α} (g : Draws)
    (hp : p.length = n + 2) (hy : p[g 0 % (n + 2)]? = some y) :
    (shuffleLoop (n + 1) p g).1 =
      (shuffleLoop n (swap p (n + 1) (g 0 % (n + 2))).dropLast g.tail).1 ++ [y] := by
  show (shuffleLoop n (swap p (n + 1) (g 0 % (n + 2))) g.tail).1 = _
  rw [swap_last hp hy, shuffleLoop_append n _ [y] g.tail
    (by rw [List.length_dropLast, swap_length]; omega)]
  simp

theorem drawsOfIndices_tail (j : Nat) (js : List Nat) :
    (drawsOfIndices (j :: js)).tail = drawsOfIndices js := rfl

theorem validIndices_zero {js : List Nat} : validIndices 0 js ↔ js = [] := by
  cases js <;> simp [validIndices]

theorem validIndices_succ {n : Nat} {js : List Nat} :
    validIndices (n + 1) js ↔ ∃ j js1, js = j :: js1 ∧ j ≤ n + 1 ∧ validIndices n js1 := by
  cases js with
  | nil => simp [validIndices]
  | cons j js1 =>
    show j ≤ n + 1 ∧ validIndices n js1 ↔ _
    constructor
    · intro h
      exact ⟨j, js1, rfl, h⟩
    · rintro ⟨j2, js2, heq, h⟩
      cases heq
      exact h

/-- Every ordering of a list without repetitions is the outcome of exactly
one sequence of draws. -/
theorem shuffleLoop_existsUnique {α : Type} :
    ∀ (n : Nat) (p : List α), p.Nodup → p.length = n + 1 → ∀ l1 : List α, l1.Perm p →
      ∃! js, validIndices n js ∧ (shuffleLoop n p (drawsOfIndices js)).1 = l1 := by
  intro n
  induction n with
  | zero =>
    intro p _ hp l1 hl1
    refine ⟨[], ⟨trivial, ?_⟩, fun js hjs => validIndices_zero.mp hjs.1⟩
    obtain ⟨x, rfl⟩ := List.length_eq_one.mp hp
    exact (List.perm_singleton.mp hl1).symm
  | succ n ih =>
    intro p hnd hp l1 hl1
    have hl1len : l1.length = n + 2 := hl1.length_eq.trans hp
    have hne : l1 ≠ [] := by
      intro h
      rw [h] at hl1len
      simp at hl1len
    have hsplit : l1.dropLast ++ [l1.getLast hne] = l1 := List.dropLast_append_getLast hne
    obtain ⟨j, hj⟩ := List.mem_iff_getElem?.mp (hl1.subset (List.getLast_mem hne))
    have hjlt : j < p.length := (List.getElem?_eq_some_iff.mp hj).1
    have hjmod : j % (n + 2) = j := Nat.mod_eq_of_lt (by omega)
    have hswap := swap_last (n := n) hp hj
    have hq_nd : (swap p (n + 1) j).dropLast.Nodup :=
      ((swap_perm p (n + 1) j).nodup_iff.mpr hnd).sublist (List.dropLast_sublist _)
    have hq_len : (swap p (n + 1) j).dropLast.length = n + 1 := by
      rw [List.length_dropLast, swap_length, hp]
      rfl
    have hq_perm : l1.dropLast.Perm (swap p (n + 1) j).dropLast := by
      rw [← List.perm_append_right_iff [l1.getLast hne], hsplit, ← hswap]
      exact hl1.trans (swap_perm p (n + 1) j).symm
    obtain ⟨js1, ⟨hv, hres⟩, huniq⟩ := ih _ hq_nd hq_len _ hq_perm
    have hstep : ∀ (k : Nat) (ks : List Nat) (z : α), p[k]? = some z → k ≤ n + 1 →
        (shuffleLoop (n + 1) p (drawsOfIndices (k :: ks))).1 =
          (shuffleLoop n (swap p (n + 1) k).dropLast (drawsOfIndices ks)).1 ++ [z] := by
      intro k ks z hz hk
      have hkmod : drawsOfIndices (k :: ks) 0 % (n + 2) = k := by
        show k % (n + 2) = k
        exact Nat.mod_eq_of_lt (by omega)
      have h := shuffleLoop_succ (drawsOfIndices (k :: ks)) hp (by rw [hkmod]; exact hz)
      rw [hkmod, drawsOfIndices_tail] at h
      exact h
    refine ⟨j :: js1, ⟨validIndices_succ.mpr ⟨j, js1, rfl, by omega, hv⟩, ?_⟩, ?_⟩
    · rw [hstep j js1 _ hj (by omega), hres, hsplit]
    · rintro js2 ⟨hv2, hres2⟩
      obtain ⟨k, ks, rfl, hk, hvk⟩ := validIndices_succ.mp hv2
      obtain ⟨z, hz⟩ : ∃ z, p[k]? = some z := ⟨p[k], List.getElem?_eq_getElem (by omega)⟩
      rw [hstep k ks z hz hk, ← hsplit] at hres2
      obtain ⟨hrest, hlast⟩ := List.append_inj' hres2 rfl
      have hzy : z = l1.getLast hne := by simpa using hlast
      have hkj : k = j := List.getElem?_inj (by omega) hnd (by rw [hz, hj, hzy])
      subst hkj
      rw [huniq ks ⟨hvk, hrest⟩]

theorem mem_allIndices : ∀ (n : Nat) (js : List Nat), js ∈ allIndices n ↔ validIndices n js := by
  intro n
  induction n with
  | zero =>
    intro js
    rw [validIndices_zero]
    simp [allIndices]
  | succ n ih =>
    intro js
    rw [validIndices_succ]
    simp only [allIndices, List.mem_flatMap, List.mem_range, List.mem_map]
    constructor
    · rintro ⟨j, hj, js1, hjs1, rfl⟩
      exact ⟨j, js1, rfl, by omega, (ih js1).mp hjs1⟩
    · rintro ⟨j, js1, rfl, hj, hv⟩
      exact ⟨j, by omega, js1, (ih js1).mpr hv, rfl⟩

theorem length_allIndices : ∀ n : Nat, (allIndices n).length = (n + 1).factorial := by
  intro n
  induction n with
  | zero => rfl
  | succ n ih =>
    have hconst : (List.map (List.length ∘ fun j => (allIndices n).map (fun js => j :: js))
        (List.range (n + 2))) = List.replicate (n + 2) (n + 1).factorial := by
      rw [← List.length_range (n + 2), ← List.map_const']
      rw [List.length_range]
      apply List.map_congr_left
      intro j _
      simp [ih]
    rw [allIndices, List.length_flatMap, hconst, List.sum_const_nat, Nat.factorial_succ (n + 1)]

theorem nodup_allIndices : ∀ n : Nat, (allIndices n).Nodup := by
  intro n
  induction n with
  | zero => simp [allIndices]
  | succ n ih =>
    rw [allIndices, List.nodup_flatMap]
    refine ⟨fun j _ => ih.map (fun a b h => (List.cons.inj h).2), ?_⟩
    refine (List.nodup_range (n + 2)).imp ?_
    intro a b hab
    show List.Disjoint _ _
    intro x hxa hxb
    obtain ⟨ja, -, rfl⟩ := List.mem_map.mp hxa
    obtain ⟨jb, -, hb⟩ := List.mem_map.mp hxb
    exact hab (List.cons.inj hb).1.symm

/-- C13: for a list of pairwise distinct items, the Fisher-Yates shuffle as a
function of its draws (one index `j` in `0..i` for each `i` from `n - 1` down
to 1) maps every draw sequence to an ordering of the list, and every
ordering of the list is the outcome of exactly one draw sequence.  There are
`n!` draw sequences and `n!` orderings, so under independent uniform draws
every ordering has the same probability `1 / n!`.  The three shuffles
(`shuffleCopy`, `shuffle` of `script.js`, `shuffle` of `faelle.js`) are the
same function of the draws. -/
theorem fisherYates_bijection {α : Type} (l : List α) (hl : l.Nodup) :
    (∀ js, validIndices (l.length - 1) js →
      (shuffleCopy l (drawsOfIndices js)).1.Perm l) ∧
    (∀ l1 : List α, l1.Perm l →
      ∃! js, validIndices (l.length - 1) js ∧ (shuffleCopy l (drawsOfIndices js)).1 = l1) ∧
    (∀ js, js ∈ allIndices (l.length - 1) ↔ validIndices (l.length - 1) js) ∧
    (allIndices (l.length - 1)).Nodup ∧
    (allIndices (l.length - 1)).length = l.length.factorial ∧
    (∀ l1 : List α, l1 ∈ l.permutations ↔ l1.Perm l) ∧
    l.permutations.Nodup ∧
    l.permutations.length = l.length.factorial ∧
    (∀ g, Script.shuffle l g = shuffleCopy l g ∧ Faelle.shuffle l g = shuffleCopy l g) := by
  refine ⟨fun js _ => shuffleCopy_perm l _, ?_, mem_allIndices _, nodup_allIndices _, ?_,
    fun l1 => List.mem_permutations, List.nodup_permutations l hl, List.length_permutations l,
    fun g => ⟨rfl, rfl⟩⟩
  · intro l1 hl1
    cases l with
    | nil =>
      refine ⟨[], ⟨trivial, (List.perm_nil.mp hl1).symm⟩, fun js hjs => validIndices_zero.mp hjs.1⟩
    | cons x l => exact shuffleLoop_existsUnique l.length (x :: l) hl rfl l1 hl1
  · cases l with
    | nil => rfl
    | cons x l => exact length_allIndices l.length

/-- Witness of `fisherYates_bijection` at the list `[1, 2, 3]` and its
ordering `[3, 1, 2]`. -/
theorem fisherYates_bijection_witness :
    [1, 2, 3].Nodup ∧
      ∃! js, validIndices 2 js ∧ (shuffleCopy [1, 2, 3] (drawsOfIndices js)).1 = [3, 1, 2] :=
  ⟨by decide, (fisherYates_bijection [1, 2, 3] (by decide)).2.1 [3, 1, 2] (by decide)⟩

/-! ## The best score -/

theorem isDigit_not_whiteSpace {d : Nat} (h : isDigit d = true) :
    isWhiteSpace d = false ∧ d ≠ 0x2D ∧ d ≠ 0x2B := by
  unfold isDigit at h
  rw [decide_eq_true_eq] at h
  refine ⟨?_, by omega, by omega⟩
  unfold isWhiteSpace
  rw [decide_eq_false_iff_not]
  omega

theorem digitsOf_spec :
    ∀ (fuel n : Nat), n < fuel →
      digitsOf fuel n ≠ [] ∧ (∀ d ∈ digitsOf fuel n, isDigit d = true) ∧
      (∀ d ∈ (digitsOf fuel n).head?, isDigit d = true) ∧
      (digitsOf fuel n).foldl (fun acc d => acc * 10 + (d - 48)) 0 = n := by
  intro fuel
  induction fuel with
  | zero => intro n h; omega
  | succ fuel ih =>
    intro n hn
    unfold digitsOf
    split_ifs with h10
    · refine ⟨by simp, ?_, ?_, by simp⟩
      · intro d hd
        rw [List.mem_singleton] at hd
        subst hd
        unfold isDigit
        rw [decide_eq_true_eq]
        omega
      · intro d hd
        simp only [List.head?_cons, Option.mem_def, Option.some.injEq] at hd
        subst hd
        unfold isDigit
        rw [decide_eq_true_eq]
        omega
    · obtain ⟨h1, h2, h3, h4⟩ := ih (n / 10) (by omega)
      refine ⟨by simp, ?_, ?_, ?_⟩
      · intro d hd
        rw [List.mem_append, List.mem_singleton] at hd
        rcases hd with hd | hd
        · exact h2 d hd
        · subst hd
          unfold isDigit
          rw [decide_eq_true_eq]
          omega
      · intro d hd
        rw [List.head?_append_of_ne_nil _ h1] at hd
        exact h3 d hd
      · rw [List.foldl_append, h4]
        simp only [List.foldl_cons, List.foldl_nil]
        omega

/-- Reading back a written score: `parseInt(String(n), 10)` is `n`. -/
theorem parseInt_numberToString (n : Nat) : parseInt (numberToString n) = some (n : Int) := by
  obtain ⟨h1, h2, h3, h4⟩ := digitsOf_spec (n + 1) n (by omega)
  unfold numberToString
  generalize digitsOf (n + 1) n = ds at h1 h2 h3 h4
  cases ds with
  | nil => exact absurd rfl h1
  | cons d ds =>
    obtain ⟨hw, hm, hp⟩ := isDigit_not_whiteSpace (h3 d rfl)
    have hdrop : List.dropWhile isWhiteSpace (d :: ds) = d :: ds := by
      rw [List.dropWhile_cons, hw]
      rfl
    have htake : List.takeWhile isDigit (d :: ds) = d :: ds :=
      List.takeWhile_eq_self_iff.mpr h2
    unfold parseInt
    simp only [hdrop, List.head?_cons, Option.some.injEq, hm, hp, or_self, if_false, htake]
    rw [h4]
    simp

theorem numberToString_injective {m n : Nat} (h : numberToString m = numberToString n) :
    m = n := by
  have := parseInt_numberToString m
  rw [h, parseInt_numberToString] at this
  exact (Int.ofNat.inj (Option.some.inj this)).symm

theorem numberToString_ne_nil (n : Nat) : numberToString n ≠ [] :=
  (digitsOf_spec (n + 1) n (by omega)).1

/-- The best score that `updateHighScoreIfNeeded` reads from a store that is
empty or holds a written score. -/
theorem parseInt_stored {stored : Option Str} {b : Nat}
    (hb : (stored = none ∧ b = 0) ∨ stored = some (numberToString b)) :
    parseInt ((jsOr stored (some (js "0"))).getD []) = some (b : Int) := by
  rcases hb with ⟨rfl, rfl⟩ | rfl
  · decide
  · have ht : truthy (some (numberToString b)) = true :=
      truthy_iff.mpr ⟨_, rfl, numberToString_ne_nil b⟩
    unfold jsOr
    rw [if_pos ht]
    exact parseInt_numberToString b

theorem updateHighScoreIfNeeded_fields (s : Session) :
    (updateHighScoreIfNeeded s).questions = s.questions ∧
      (updateHighScoreIfNeeded s).currentQuestionIndex = s.currentQuestionIndex ∧
      (updateHighScoreIfNeeded s).score = s.score ∧
      (updateHighScoreIfNeeded s).nextButtonShown = s.nextButtonShown ∧
      (updateHighScoreIfNeeded s).restartButtonShown = s.restartButtonShown := by
  unfold updateHighScoreIfNeeded
  split
  · split_ifs <;> exact ⟨rfl, rfl, rfl, rfl, rfl⟩
  · exact ⟨rfl, rfl, rfl, rfl, rfl⟩

/-- What `handleAnswer` does to the cursor, the score, the question list and
the controls. -/
theorem handleAnswer_fields (selected : Str) (q : Question) (s : Session) :
    (handleAnswer selected q s).questions = s.questions ∧
      (handleAnswer selected q s).currentQuestionIndex = s.currentQuestionIndex ∧
      (handleAnswer selected q s).score =
        s.score + (if handleAnswer.correct selected q = true then 1 else 0) ∧
      (handleAnswer selected q s).optionsDisabled = true ∧
      (handleAnswer selected q s).nextButtonShown =
        !decide (s.currentQuestionIndex ≥ s.questions.length - 1) := by
  unfold handleAnswer
  by_cases hc : handleAnswer.correct selected q = true <;>
    by_cases hlast : s.currentQuestionIndex ≥ s.questions.length - 1 <;>
    simp [hc, hlast, updateHighScoreIfNeeded_fields]

theorem updateHighScoreIfNeeded_highScore (s : Session) :
    (updateHighScoreIfNeeded s).highScore =
      match parseInt ((jsOr s.highScore (some (js "0"))).getD []) with
      | some currentHigh =>
        if (s.score : Int) > currentHigh then some (numberToString s.score) else s.highScore
      | none => s.highScore := by
  unfold updateHighScoreIfNeeded
  generalize parseInt ((jsOr s.highScore (some (js "0"))).getD []) = r
  cases r with
  | none => rfl
  | some c =>
    simp only
    split_ifs <;> rfl

/-- The store after `handleAnswer` on the last question. -/
theorem handleAnswer_highScore_last (selected : Str) (q : Question) (s : Session)
    (hlast : s.currentQuestionIndex ≥ s.questions.length - 1) :
    (handleAnswer selected q s).highScore =
      match parseInt ((jsOr s.highScore (some (js "0"))).getD []) with
      | some currentHigh =>
        if ((handleAnswer selected q s).score : Int) > currentHigh then
          some (numberToString (handleAnswer selected q s).score)
        else s.highScore
      | none => s.highScore := by
  rw [(handleAnswer_fields selected q s).2.2.1]
  have hl : decide (s.currentQuestionIndex ≥ s.questions.length - 1) = true :=
    decide_eq_true hlast
  unfold handleAnswer
  cases hc : handleAnswer.correct selected q
  · simp only [Bool.false_eq_true, if_false, hl, if_true, Nat.add_zero]
    exact updateHighScoreIfNeeded_highScore _
  · simp only [if_true, hl]
    exact updateHighScoreIfNeeded_highScore _

/-- The store after `handleAnswer` on a question that is not the last. -/
theorem handleAnswer_highScore_notLast (selected : Str) (q : Question) (s : Session)
    (hlast : ¬ s.currentQuestionIndex ≥ s.questions.length - 1) :
    (handleAnswer selected q s).highScore = s.highScore := by
  unfold handleAnswer
  by_cases hc : handleAnswer.correct selected q = true <;> simp [hc, hlast]

/-- C14: when `handleAnswer` runs on the last question and the store is
empty (best score 0) or holds the best score `b`, the store afterwards holds
exactly the session score if that score is greater than `b`, and is
unchanged otherwise.  Three questions answered with two correct answers
against the stored best 1 leave `2` in the store; one correct answer against
the stored best 5 leaves the store as it was. -/
theorem highScore_written_iff (s : Session) (selected : Str) (q : Question) (b : Nat)
    (hlast : s.currentQuestionIndex ≥ s.questions.length - 1)
    (hb : (s.highScore = none ∧ b = 0) ∨ s.highScore = some (numberToString b)) :
    ((handleAnswer selected q s).score > b →
      (handleAnswer selected q s).highScore =
        some (numberToString (handleAnswer selected q s).score) ∧
      (handleAnswer selected q s).highScore ≠ s.highScore) ∧
    ((handleAnswer selected q s).score ≤ b →
      (handleAnswer selected q s).highScore = s.highScore) ∧
    ((playThree (js "der") (js "die") (js "der") (sessionWithBest (some (js "1")))).score = 2 ∧
      (playThree (js "der") (js "die") (js "der") (sessionWithBest (some (js "1")))).highScore =
        some (js "2")) ∧
    ((playThree (js "die") (js "die") (js "der") (sessionWithBest (some (js "5")))).score = 1 ∧
      (playThree (js "die") (js "die") (js "der") (sessionWithBest (some (js "5")))).highScore =
        some (js "5")) := by
  have hstore := handleAnswer_highScore_last selected q s hlast
  rw [parseInt_stored hb] at hstore
  simp only at hstore
  refine ⟨fun hgt => ?_, fun hle => ?_, by decide, by decide⟩
  · have hgt1 : ((handleAnswer selected q s).score : Int) > (b : Int) := by omega
    rw [if_pos hgt1] at hstore
    refine ⟨hstore, ?_⟩
    rw [hstore]
    rcases hb with ⟨hnone, -⟩ | hsome
    · rw [hnone]
      exact Option.some_ne_none _
    · rw [hsome]
      intro h
      have := numberToString_injective (Option.some.inj h)
      omega
  · have hle1 : ¬ ((handleAnswer selected q s).score : Int) > (b : Int) := by omega
    rw [if_neg hle1] at hstore
    exact hstore

/-- Witness of `highScore_written_iff` at the last of three questions, score
1, stored best 1, answered correctly. -/
theorem highScore_written_iff_witness :
    beforeLastAnswer.currentQuestionIndex ≥ beforeLastAnswer.questions.length - 1 ∧
      beforeLastAnswer.highScore = some (numberToString 1) ∧
      (handleAnswer (js "das") hausQuestion beforeLastAnswer).score = 2 ∧
      (handleAnswer (js "das") hausQuestion beforeLastAnswer).highScore =
        some (numberToString (handleAnswer (js "das") hausQuestion beforeLastAnswer).score) :=
  ⟨by decide, by decide, by decide,
    ((highScore_written_iff beforeLastAnswer (js "das") hausQuestion 1 (by decide)
      (Or.inr (by decide))).1 (by decide)).1⟩

/-! ## The session state -/

theorem startQuiz_fields (s : Session) :
    (startQuiz s).questions = s.questions ∧ (startQuiz s).currentQuestionIndex = 0 ∧
      (startQuiz s).score = 0 ∧ (startQuiz s).nextButtonShown = false ∧
      (s.questions ≠ [] → (startQuiz s).optionsDisabled = false) := by
  unfold startQuiz
  simp only
  split_ifs with h
  · refine ⟨rfl, rfl, rfl, rfl, fun hne => ?_⟩
    exact absurd (List.length_eq_zero.mp h) hne
  · exact ⟨rfl, rfl, rfl, rfl, fun _ => rfl⟩

/-- The invariant of the reachable states of a non-empty session. -/
theorem reachable_inv {qs : List Question} (hqs : qs ≠ []) {k : Nat} {s : Session}
    (h : Reachable qs k s) :
    s.questions = qs ∧ s.currentQuestionIndex < qs.length ∧ s.score ≤ k ∧
      k = s.currentQuestionIndex + (if s.optionsDisabled = true then 1 else 0) ∧
      (s.nextButtonShown = true →
        s.optionsDisabled = true ∧ s.currentQuestionIndex + 1 < qs.length) := by
  have hpos : 0 < qs.length := List.length_pos.mpr hqs
  induction h with
  | start s0 h0 =>
    obtain ⟨h1, h2, h3, h4, h5⟩ := startQuiz_fields s0
    rw [h1, h2, h3, h4, h5 (h0 ▸ hqs)]
    exact ⟨h0, hpos, Nat.le_refl _, by simp, fun h => Bool.noConfusion h⟩
  | @restart k1 s1 _ ih =>
    obtain ⟨i1, -, -, -, -⟩ := ih
    obtain ⟨h1, h2, h3, h4, h5⟩ := startQuiz_fields s1
    rw [h1, h2, h3, h4, h5 (i1 ▸ hqs)]
    exact ⟨i1, hpos, Nat.le_refl _, by simp, fun h => Bool.noConfusion h⟩
  | @submit k1 s1 selected q _ hen hq ih =>
    obtain ⟨i1, i2, i3, i4, -⟩ := ih
    obtain ⟨h1, h2, h3, h4, h5⟩ := handleAnswer_fields selected q s1
    rw [h1, h2, h3, h4, h5]
    rw [hen] at i4
    simp only [Bool.false_eq_true, if_false, Nat.add_zero] at i4
    refine ⟨i1, i2, ?_, by simp [i4], fun hn => ⟨rfl, ?_⟩⟩
    · split_ifs <;> omega
    · rw [i1] at hn
      simp only [Bool.not_eq_true', decide_eq_false_iff_not] at hn
      omega
  | @advance k1 s1 _ hn ih =>
    obtain ⟨i1, i2, i3, i4, i5⟩ := ih
    obtain ⟨j1, j2⟩ := i5 hn
    rw [j1] at i4
    simp only [if_true] at i4
    refine ⟨i1, j2, i3, ?_, fun h => Bool.noConfusion h⟩
    show k1 = s1.currentQuestionIndex + 1 + (if false = true then 1 else 0)
    simp only [Bool.false_eq_true, if_false, Nat.add_zero]
    exact i4

/-- C19: in every state that a non-empty session reaches by starting or
restarting, submitting an answer to a question that is not yet answered, and
advancing with the next button, the cursor is below the number of questions
and the score is at most the number of questions answered since the start,
which is at most the number of questions.  A submission adds 1 to the score
if the answer is correct and 0 otherwise and keeps the cursor; advancing
adds 1 to the cursor and keeps the score; a restart sets both to 0; all
three keep the question list. -/
theorem session_invariant (qs : List Question) (hqs : qs ≠ []) (k : Nat) (s : Session)
    (h : Reachable qs k s) :
    (s.questions = qs ∧ 0 ≤ s.currentQuestionIndex ∧
      s.currentQuestionIndex < s.questions.length ∧
      0 ≤ s.score ∧ s.score ≤ k ∧ k ≤ s.questions.length) ∧
    (∀ selected q,
      (handleAnswer selected q s).score =
        s.score + (if handleAnswer.correct selected q = true then 1 else 0) ∧
      (handleAnswer selected q s).currentQuestionIndex = s.currentQuestionIndex ∧
      (handleAnswer selected q s).questions = s.questions) ∧
    ((nextButtonClick s).currentQuestionIndex = s.currentQuestionIndex + 1 ∧
      (nextButtonClick s).score = s.score ∧ (nextButtonClick s).questions = s.questions) ∧
    ((startQuiz s).currentQuestionIndex = 0 ∧ (startQuiz s).score = 0 ∧
      (startQuiz s).questions = s.questions) := by
  obtain ⟨i1, i2, i3, i4, -⟩ := reachable_inv hqs h
  refine ⟨⟨i1, Nat.zero_le _, i1 ▸ i2, Nat.zero_le _, i3, ?_⟩, fun selected q => ?_,
    ⟨rfl, rfl, rfl⟩, ?_⟩
  · rw [i1, i4]
    split_ifs <;> omega
  · obtain ⟨h1, h2, h3, -, -⟩ := handleAnswer_fields selected q s
    exact ⟨h3, h2, h1⟩
  · obtain ⟨h1, h2, h3, -, -⟩ := startQuiz_fields s
    exact ⟨h2, h3, h1⟩

/-- Witness of `session_invariant` at the state after the first of three
questions is answered. -/
theorem session_invariant_witness :
    threeQuestions ≠ [] ∧
      Reachable threeQuestions 1
        (handleAnswer (js "der") hundQuestion (startQuiz (sessionWithBest none))) ∧
      (handleAnswer (js "der") hundQuestion (startQuiz (sessionWithBest none))).score ≤ 1 ∧
      (handleAnswer (js "der") hundQuestion
        (startQuiz (sessionWithBest none))).currentQuestionIndex < 3 :=
  ⟨List.cons_ne_nil _ _,
    Reachable.submit (js "der") hundQuestion (Reachable.start (sessionWithBest none) rfl)
      rfl rfl,
    (session_invariant threeQuestions (List.cons_ne_nil _ _) 1 _
      (Reachable.submit (js "der") hundQuestion (Reachable.start (sessionWithBest none) rfl)
      rfl rfl)).1.2.2.2.2.1,
    (session_invariant threeQuestions (List.cons_ne_nil _ _) 1 _
      (Reachable.submit (js "der") hundQuestion (Reachable.start (sessionWithBest none) rfl)
      rfl rfl)).1.2.2.1⟩

/-! ## The session filter of the cases engine -/

theorem faelle_shuffle_perm {α : Type} (arr : List α) (g : Draws) :
    (Faelle.shuffle arr g).1.Perm arr :=
  shuffleLoop_perm _ arr g

/-- The questions of `loadQuestions` are the candidates that pass the filter. -/
theorem mem_loadQuestions {raw : List Faelle.RawExercise} {caseFilter genderFilter : Option Str}
    {g : Draws} {q : Faelle.Exercise} :
    q ∈ (Faelle.loadQuestions raw caseFilter genderFilter g).1 ↔
      q ∈ Faelle.loadQuestions.candidates raw ∧
        Faelle.loadQuestions.keep caseFilter genderFilter q = true := by
  unfold Faelle.loadQuestions
  rw [(faelle_shuffle_perm _ g).mem_iff, List.mem_filter]

/-- C15, refuted as stated: with the query `?gender=` the gender filter is
the empty string and no case filter is given; both exercises are retained,
and none of them has the empty string among its tags. -/
theorem loadQuestions_empty_gender_filter :
    (Faelle.loadQuestions taggedExercises none (some (js "")) (fun _ => 0)).1.length = 2 ∧
      ∀ q ∈ (Faelle.loadQuestions taggedExercises none (some (js "")) (fun _ => 0)).1,
        Atom.str (js "") ∉ q.tags := by
  decide

/-- C15, amended: with a non-empty gender filter `gender` and no case filter,
every retained exercise has `gender` among its tags and every candidate
tagged `gender` is retained; when neither filter is present (each is absent
or empty), as many exercises are retained as there are candidates. -/
theorem loadQuestions_filter (raw : List Faelle.RawExercise) (g : Draws) (gender : Str)
    (hg : gender ≠ []) :
    (∀ q ∈ (Faelle.loadQuestions raw none (some gender) g).1, Atom.str gender ∈ q.tags) ∧
    (∀ q ∈ Faelle.loadQuestions.candidates raw, Atom.str gender ∈ q.tags →
      q ∈ (Faelle.loadQuestions raw none (some gender) g).1) ∧
    (Faelle.loadQuestions raw none none g).1.length =
      (Faelle.loadQuestions.candidates raw).length ∧
    (∀ c gd, truthy c = false → truthy gd = false →
      (Faelle.loadQuestions raw c gd g).1.length =
        (Faelle.loadQuestions.candidates raw).length) := by
  have ht : truthy (some gender) = true := truthy_iff.mpr ⟨gender, rfl, hg⟩
  have hkeep : ∀ q, Faelle.loadQuestions.keep none (some gender) q = true ↔
      Atom.str gender ∈ q.tags := by
    intro q
    unfold Faelle.loadQuestions.keep
    have hn : truthy none = false := rfl
    by_cases hq : Atom.str gender ∈ q.tags <;> simp [hn, ht, hq]
  have hall : ∀ c gd, truthy c = false → truthy gd = false →
      (Faelle.loadQuestions raw c gd g).1.length =
        (Faelle.loadQuestions.candidates raw).length := by
    intro c gd hc hgd
    unfold Faelle.loadQuestions
    rw [(faelle_shuffle_perm _ g).length_eq, List.filter_eq_self.mpr]
    intro q _
    simp [Faelle.loadQuestions.keep, hc, hgd]
  refine ⟨fun q hq => (hkeep q).mp (mem_loadQuestions.mp hq).2,
    fun q hq ht => mem_loadQuestions.mpr ⟨hq, (hkeep q).mpr ht⟩, hall none none rfl rfl, hall⟩

/-- Witness of `loadQuestions_filter` at the filter `feminin`. -/
theorem loadQuestions_filter_witness :
    js "feminin" ≠ [] ∧
      ∀ q ∈ (Faelle.loadQuestions taggedExercises none (some (js "feminin")) (fun _ => 0)).1,
        Atom.str (js "feminin") ∈ q.tags :=
  ⟨by decide, (loadQuestions_filter taggedExercises (fun _ => 0) (js "feminin") (by decide)).1⟩

/-! ## Free-text grading of the generic engine -/

theorem trim_head (s : Str) : List.dropWhile isWhiteSpace (trim s) = trim s := by
  unfold trim
  have hz := (List.dropWhile_eq_self_iff (p := isWhiteSpace)
    (l := s.dropWhile isWhiteSpace)).mp (List.dropWhile_idempotent _ _)
  obtain ⟨t, ht⟩ := List.rdropWhile_prefix isWhiteSpace (s.dropWhile isWhiteSpace)
  generalize (s.dropWhile isWhiteSpace).rdropWhile isWhiteSpace = y at ht ⊢
  generalize s.dropWhile isWhiteSpace = z at hz ht
  cases y with
  | nil => rfl
  | cons a y =>
    subst ht
    have := hz (by simp)
    simp only [List.cons_append, List.get_eq_getElem, List.getElem_cons_zero] at this
    simp [List.dropWhile_cons, this]

/-- C16: for the expected answer ` Hund ` (with a leading and a trailing
space) the generic engine grades the submitted text ` Hund ` as incorrect,
although the trimmed lowercase forms of the two are equal; no submitted
string at all is graded correct for this expected answer.  The cases engine,
which trims both sides, grades the same submission as correct. -/
theorem selectFillInBlankAnswer_untrimmed_expected :
    Script.selectFillInBlankAnswer.correct (js " Hund ") (js " Hund ") = false ∧
      toLowerCase (trim (js " Hund ")) = toLowerCase (trim (js " Hund ")) ∧
      (∀ s, Script.selectFillInBlankAnswer.correct s (js " Hund ") = false) ∧
      Faelle.selectFillInBlankAnswer.correct (js " Hund ") (js " Hund ") = true := by
  refine ⟨by decide, rfl, fun s => ?_, by decide⟩
  unfold Script.selectFillInBlankAnswer.correct
  rw [decide_eq_false_iff_not]
  intro h
  have hh := trim_head s
  cases ht : trim s with
  | nil =>
    rw [ht] at h
    revert h
    decide
  | cons c t =>
    rw [ht] at h hh
    have hc : isWhiteSpace c = false := by
      by_contra hw
      have hw1 : isWhiteSpace c = true := by simpa using hw
      rw [List.dropWhile_cons, hw1] at hh
      have := (List.dropWhile_suffix isWhiteSpace (l := t)).length_le
      rw [show List.dropWhile isWhiteSpace t = c :: t from hh] at this
      simp at this
    have hlow : lowerCp c = 0x20 := by
      have := congrArg List.head? h
      simpa [toLowerCase, js] using this
    unfold lowerCp at hlow
    unfold isWhiteSpace at hc
    rw [decide_eq_false_iff_not] at hc
    split_ifs at hlow <;> omega

/-! ## Kind and answer of a normalised record -/

/-- C17, refuted as stated: the record with the explicit type `''` and a list
of options gets the kind `multiple-choice`; its type is not kept. -/
theorem normalizeItem_empty_type_not_kept :
    emptyTypeItem.type = JsVal.ofString "" ∧
      (normalizeItem emptyTypeItem).type = JsVal.ofString "multiple-choice" ∧
      (normalizeItem emptyTypeItem).type ≠ emptyTypeItem.type := by
  decide

/-- C17, amended: a truthy type (a non-empty string) is kept, except that
`mcq` becomes `multiple-choice`; a record whose type is absent or falsy (the
empty string, `null`, `0`, `false`) gets `multiple-choice` when its options
value is truthy (every list, also the empty one) and `fill-in-the-blank`
otherwise.  An answer other than `undefined` is kept; when the answer is
absent, a numeric `answerIndex` with a list of options resolves it to
`options[answerIndex]`, and without them it stays `undefined`. -/
theorem normalizeItem_kind_and_answer (item : RawItem) :
    (item.type.truthy = true → item.type ≠ JsVal.ofString "mcq" →
      (normalizeItem item).type = item.type) ∧
    (item.type = JsVal.ofString "mcq" →
      (normalizeItem item).type = JsVal.ofString "multiple-choice") ∧
    (item.type.truthy = false → item.options.truthy = true →
      (normalizeItem item).type = JsVal.ofString "multiple-choice") ∧
    (item.type.truthy = false → item.options.truthy = false →
      (normalizeItem item).type = JsVal.ofString "fill-in-the-blank") ∧
    (item.answer ≠ .atom .undefined → (normalizeItem item).answer = item.answer) ∧
    (∀ i xs, item.answer = .atom .undefined → item.answerIndex = .atom (.num i) →
      item.options = .arr xs → (normalizeItem item).answer = .atom (elementAt xs i)) ∧
    (item.answer = .atom .undefined →
      ((∀ i, item.answerIndex ≠ .atom (.num i)) ∨ (∀ xs, item.options ≠ .arr xs)) →
      (normalizeItem item).answer = .atom .undefined) := by
  have hmcq : (JsVal.ofString "mcq").truthy = true := by decide
  have hne : JsVal.ofString "multiple-choice" ≠ JsVal.ofString "mcq" := by decide
  have hne2 : JsVal.ofString "fill-in-the-blank" ≠ JsVal.ofString "mcq" := by decide
  refine ⟨fun h1 h2 => ?_, fun h1 => ?_, fun h1 h2 => ?_, fun h1 h2 => ?_, fun h1 => ?_,
    fun i xs h1 h2 h3 => ?_, fun h1 h2 => ?_⟩
  · simp [normalizeItem, JsVal.or, h1, h2]
  · simp [normalizeItem, JsVal.or, h1, hmcq]
  · simp [normalizeItem, JsVal.or, h1, h2, hne]
  · simp [normalizeItem, JsVal.or, h1, h2, hne2]
  · simp only [normalizeItem]
    split
    · rename_i hu _ _
      exact absurd hu h1
    · rfl
  · simp [normalizeItem, h1, h2, h3]
  · simp only [normalizeItem]
    split
    · rename_i i xs _ hi hx
      rcases h2 with h2 | h2
      · exact absurd hi (h2 i)
      · split at hx
        · rename_i ys hys
          exact absurd hys (h2 ys)
        · exact Option.noConfusion hx
    · exact h1

/-- Witness of `normalizeItem_kind_and_answer` at the record with the type
`mcq`, no answer and the answer index 1. -/
theorem normalizeItem_kind_and_answer_witness :
    mcqIndexItem.type = JsVal.ofString "mcq" ∧
      (normalizeItem mcqIndexItem).type = JsVal.ofString "multiple-choice" ∧
      (normalizeItem mcqIndexItem).answer = JsVal.ofString "die" :=
  ⟨rfl, (normalizeItem_kind_and_answer mcqIndexItem).2.1 rfl,
    ((normalizeItem_kind_and_answer mcqIndexItem).2.2.2.2.2.1 1 _ rfl rfl rfl).trans
      (by decide)⟩

/-! ## Umlauts in the string normaliser -/

theorem canonInsert_starter {c : Nat} (hc : ccc c = 0) (l : List Nat) :
    canonInsert c l = c :: l := by
  cases l with
  | nil => rfl
  | cons d l => simp [canonInsert, hc]

theorem canonInsert_append_starter {s : Nat} (hs : ccc s = 0) (x : Nat) (r : List Nat) :
    ∀ a : List Nat, canonInsert x (a ++ s :: r) = canonInsert x a ++ s :: r := by
  intro a
  induction a with
  | nil => simp [canonInsert, hs]
  | cons d a ih =>
    show (if ccc d ≠ 0 ∧ ccc d < ccc x then d :: canonInsert x (a ++ s :: r)
      else x :: d :: (a ++ s :: r)) =
      (if ccc d ≠ 0 ∧ ccc d < ccc x then d :: canonInsert x a else x :: d :: a) ++ s :: r
    split_ifs
    · rw [ih]
      rfl
    · rfl

/-- A starter splits the canonical ordering. -/
theorem canonicalOrder_append_starter {s : Nat} (hs : ccc s = 0) (t : List Nat) :
    ∀ u : List Nat,
      canonicalOrder (u ++ s :: t) = canonicalOrder u ++ s :: canonicalOrder t := by
  intro u
  induction u with
  | nil => simp [canonicalOrder, canonInsert_starter hs]
  | cons x u ih =>
    show canonInsert x (canonicalOrder (u ++ s :: t)) =
      canonInsert x (canonicalOrder u) ++ s :: canonicalOrder t
    rw [ih, canonInsert_append_starter hs]

theorem stripDiacritics_canonInsert {m : Nat} (hm : isDiacritic m = true) :
    ∀ l : List Nat, stripDiacritics (canonInsert m l) = stripDiacritics l := by
  intro l
  induction l with
  | nil => simp [canonInsert, stripDiacritics, hm]
  | cons d l ih =>
    unfold canonInsert
    split_ifs
    · unfold stripDiacritics at ih ⊢
      rw [List.filter_cons, List.filter_cons, ih]
    · unfold stripDiacritics
      rw [List.filter_cons]
      simp [hm]

/-- A precomposed lowercase letter, decomposed into a starter and a
diacritic, leaves the same string as its base letter once the diacritics
are stripped. -/
theorem strip_nfd_composed {c b m : Nat} (hc : lowerCp c = c) (hd : decompCp c = [b, m])
    (hb : lowerCp b = b) (hbd : decompCp b = [b]) (hbs : ccc b = 0)
    (hm : isDiacritic m = true) (u v : Str) :
    stripDiacritics (nfd (toLowerCase (u ++ c :: v))) =
      stripDiacritics (nfd (toLowerCase (u ++ b :: v))) := by
  unfold nfd toLowerCase
  simp only [List.map_append, List.map_cons, List.flatMap_append, List.flatMap_cons, hc, hd, hb,
    hbd, List.cons_append, List.nil_append]
  rw [canonicalOrder_append_starter hbs, canonicalOrder_append_starter hbs]
  unfold stripDiacritics
  rw [List.filter_append, List.filter_append, List.filter_cons, List.filter_cons]
  have h := stripDiacritics_canonInsert hm
    (canonicalOrder ((List.map lowerCp v).flatMap decompCp))
  unfold stripDiacritics at h
  simp only [canonicalOrder]
  rw [h]

/-- No code point `ä`, `ö`, `ü` is left when the diacritics are stripped. -/
theorem no_umlaut_after_strip (s : Str) :
    0xE4 ∉ stripDiacritics (nfd (toLowerCase s)) ∧
      0xF6 ∉ stripDiacritics (nfd (toLowerCase s)) ∧
      0xFC ∉ stripDiacritics (nfd (toLowerCase s)) := by
  have hfix : ∀ c ∈ stripDiacritics (nfd (toLowerCase s)), decompCp c = [c] := by
    intro c hc
    unfold stripDiacritics at hc
    rw [List.mem_filter] at hc
    obtain ⟨hc, -⟩ := hc
    unfold nfd at hc
    rw [mem_canonicalOrder, List.mem_flatMap] at hc
    obtain ⟨x, hx, hcx⟩ := hc
    unfold toLowerCase at hx
    rw [List.mem_map] at hx
    obtain ⟨y, -, rfl⟩ := hx
    exact (decomp_lower_props hcx).2.1
  refine ⟨fun h => ?_, fun h => ?_, fun h => ?_⟩ <;>
    · have := hfix _ h
      revert this
      decide

/-- C18: `normalizeStr` erases umlauts: for all strings `u` and `v` the
results on `u + 'ü' + v` and `u + 'u' + v` are equal, likewise for `ä`/`a`
and `ö`/`o`.  For every string, none of `ä`, `ö`, `ü` is left when the
literal substitutions run, so the three umlaut substitutions change
nothing and the result is the trimmed string with `ß` replaced by `ss`
(which does happen: `Straße` becomes `strasse`).  For the entry with lemma
`Mutter` and plural `Mütter`, the plural exercise of either builder grades
the submitted singular `Mutter` as correct. -/
theorem normalizeStr_erases_umlauts (u v : Str) :
    normalizeStr (u ++ js "ü" ++ v) = normalizeStr (u ++ js "u" ++ v) ∧
    normalizeStr (u ++ js "ä" ++ v) = normalizeStr (u ++ js "a" ++ v) ∧
    normalizeStr (u ++ js "ö" ++ v) = normalizeStr (u ++ js "o" ++ v) ∧
    (∀ s, 0xE4 ∉ stripDiacritics (nfd (toLowerCase s)) ∧
      0xF6 ∉ stripDiacritics (nfd (toLowerCase s)) ∧
      0xFC ∉ stripDiacritics (nfd (toLowerCase s)) ∧
      replaceAll 0xFC (js "ue") (replaceAll 0xF6 (js "oe") (replaceAll 0xE4 (js "ae")
        (stripDiacritics (nfd (toLowerCase s))))) = stripDiacritics (nfd (toLowerCase s)) ∧
      normalizeStr s =
        trim (replaceAll 0xDF (js "ss") (stripDiacritics (nfd (toLowerCase s))))) ∧
    normalizeStr (js "Straße") = js "strasse" ∧
    normalizeStr (js "Mütter") = normalizeStr (js "Mutter") ∧
    (∀ g, ((fallbackBuildNounExercises mutter g).1.filter
        (fun ex => decide (ex.type = js "type-in"))).map
        (fun ex => handleAnswer.correct (js "Mutter") (buildQuestions.nounQuestion 0 ex)) =
      [true]) ∧
    (∀ g, ((Nouns.buildNounExercises mutter g).1.filter
        (fun ex => decide (ex.type = js "type-in"))).map
        (fun ex => handleAnswer.correct (js "Mutter") (buildQuestions.nounQuestion 0 ex)) =
      [true]) := by
  have hrepl : ∀ s, replaceAll 0xFC (js "ue") (replaceAll 0xF6 (js "oe")
      (replaceAll 0xE4 (js "ae") (stripDiacritics (nfd (toLowerCase s))))) =
        stripDiacritics (nfd (toLowerCase s)) := by
    intro s
    obtain ⟨h1, h2, h3⟩ := no_umlaut_after_strip s
    have e1 : replaceAll 0xE4 (js "ae") (stripDiacritics (nfd (toLowerCase s))) =
        stripDiacritics (nfd (toLowerCase s)) :=
      replaceAll_absent (fun c hc hE => h1 (by rw [← hE]; exact hc))
    have e2 : replaceAll 0xF6 (js "oe") (stripDiacritics (nfd (toLowerCase s))) =
        stripDiacritics (nfd (toLowerCase s)) :=
      replaceAll_absent (fun c hc hE => h2 (by rw [← hE]; exact hc))
    have e3 : replaceAll 0xFC (js "ue") (stripDiacritics (nfd (toLowerCase s))) =
        stripDiacritics (nfd (toLowerCase s)) :=
      replaceAll_absent (fun c hc hE => h3 (by rw [← hE]; exact hc))
    rw [e1, e2, e3]
  have hpair : ∀ c b m : Nat, lowerCp c = c → decompCp c = [b, m] → lowerCp b = b →
      decompCp b = [b] → ccc b = 0 → isDiacritic m = true →
      normalizeStr (u ++ [c] ++ v) = normalizeStr (u ++ [b] ++ v) := by
    intro c b m h1 h2 h3 h4 h5 h6
    unfold normalizeStr
    rw [List.append_assoc, List.append_assoc, List.singleton_append, List.singleton_append,
      strip_nfd_composed h1 h2 h3 h4 h5 h6 u v]
  refine ⟨hpair 0xFC 0x75 0x308 (by decide) (by decide) (by decide) (by decide) (by decide)
      (by decide),
    hpair 0xE4 0x61 0x308 (by decide) (by decide) (by decide) (by decide) (by decide)
      (by decide),
    hpair 0xF6 0x6F 0x308 (by decide) (by decide) (by decide) (by decide) (by decide)
      (by decide),
    fun s => ?_, by decide, by decide, fun g => rfl, fun g => rfl⟩
  obtain ⟨h1, h2, h3⟩ := no_umlaut_after_strip s
  refine ⟨h1, h2, h3, hrepl s, ?_⟩
  unfold normalizeStr
  rw [hrepl s]

end DeutscheUebungen
